import Mathlib

/-!
Verification of the process-flow layout engine in `build_flowchart_smart.py`.

The development shallowly embeds the layout-relevant parts of the program:
the schema parser (`parse_schema_details_only`), the decision router
(`plan_decision_routes`), column assignment (`assign_columns`), row
ordering (`order_within_columns`), the serpentine chunking and box
placement performed by `render`, and the orthogonal connector router
(`route_orthogonal_detour`) together with its lane bookkeeping
(`add_seg_registered`, `segment_hits_rect`, `path_clear`, `lane_free`).

Conventions of the embedding:
* All drawing coordinates are EMU integers (`Inches x = x * 914400`),
  exactly as in python-pptx.  Python `//` (floor division) is `Int.fdiv`.
* Python dicts are insertion-ordered association lists; Python sets whose
  iteration order is irrelevant to the result are plain lists.
* The two loops whose termination is not structural (`assign_columns` and
  the Kahn loop of `order_within_columns`) take a fuel argument; running
  out of fuel is reported as a distinct outcome, and Python runtime errors
  (`KeyError` / `TypeError`) are modelled as an error outcome.
* The PIL font used for text measurement is an external collaborator; it
  is modelled as an explicit record of a width metric and the two
  `getmetrics` values, passed through the pipeline as a parameter.
-/

namespace FlowSmart

/-- Python's default `str.strip` / `\s` whitespace characters
    (space, tab, newline, carriage return, vertical tab, form feed). -/
def isWS (c : Char) : Bool :=
  c = ' ' || c = '\t' || c = '\n' || c = '\r' || c = '\x0b' || c = '\x0c'

/-- Strip leading and trailing whitespace from a character list
    (Python `str.strip()`). -/
def stripL (l : List Char) : List Char :=
  ((l.dropWhile isWS).reverse.dropWhile isWS).reverse

/-- Python `str.strip()` on strings. -/
def pyStrip (s : String) : String := String.mk (stripL s.data)

/-- Drop leading whitespace (the greedy regex `\s*`). -/
def dropWS (l : List Char) : List Char := l.dropWhile isWS

/-- Case-insensitive prefix match (regexes are compiled with `re.I`);
    returns the remainder after the prefix on success. -/
def matchCI : List Char → List Char → Option (List Char)
  | [], rest => some rest
  | _, [] => none
  | p :: ps, c :: cs => if p.toLower = c.toLower then matchCI ps cs else none

/-- `(.+?)\]`: lazily capture at least one character up to the first `]`
    (the first character is consumed unconditionally, so the bracket may
    itself start the capture).  Returns the capture and the remainder. -/
def lazyCapRBAux (acc : List Char) : List Char → Option (List Char × List Char)
  | [] => none
  | c :: rest => if c = ']' then some (acc.reverse, rest) else lazyCapRBAux (c :: acc) rest

/-- Capture group `(.+?)` followed by `\]` (NODE_RE's id group). -/
def lazyCapRB : List Char → Option (List Char × List Char)
  | [] => none
  | c :: rest => lazyCapRBAux [c] rest

/-- `(.+?)\]\s*$`: lazily capture up to a `]` that is followed only by
    whitespace; regex backtracking extends the capture past any `]` whose
    tail is not all-whitespace (LEADS_RE / PATH_RE id group). -/
def lazyCapRBEndAux (acc : List Char) : List Char → Option (List Char)
  | [] => none
  | c :: rest =>
      if c = ']' && rest.all isWS then some acc.reverse
      else lazyCapRBEndAux (c :: acc) rest

/-- Capture group `(.+?)` followed by `\]\s*$`. -/
def lazyCapRBEnd : List Char → Option (List Char)
  | [] => none
  | c :: rest => lazyCapRBEndAux [c] rest

/-- The keyword alternation of NODE_RE, each with its following colon,
    in the alternation's order (so that `Info` only matches when
    immediately followed by a colon, otherwise `Information` applies). -/
def nodeKinds : List String :=
  ["start:", "end:", "decision:", "action:", "info:", "information:"]

/-- Try the NODE_RE keyword alternatives in order; returns the keyword
    without its colon and the remainder of the line. -/
def matchKind : List String → List Char → Option (String × List Char)
  | [], _ => none
  | k :: ks, l =>
      match matchCI k.data l with
      | some rest => some (String.mk (k.data.dropLast), rest)
      | none => matchKind ks l

/-- NODE_RE `^(Start|End|Decision|Action|Info|Information):\s*\[(.+?)\]\s*(.*)$`
    (case-insensitive).  Returns the lowercase kind keyword, the raw id
    capture and the rest-of-line capture (whose leading whitespace the
    greedy `\s*` has consumed). -/
def matchNode (l : List Char) : Option (String × String × String) :=
  match matchKind nodeKinds l with
  | none => none
  | some (kind, rest) =>
      match dropWS rest with
      | [] => none
      | c :: cs =>
          if c = '[' then
            match lazyCapRB cs with
            | some (nid, after) => some (kind, String.mk nid, String.mk (dropWS after))
            | none => none
          else none

/-- DETAILS_RE `^\s*Details:\s*(.*)$` (case-insensitive); the capture keeps
    any trailing whitespace, exactly as `m.group(1)` does. -/
def matchDetails (l : List Char) : Option String :=
  match matchCI "details:".data (dropWS l) with
  | some rest => some (String.mk (dropWS rest))
  | none => none

/-- TITLE_RE `^\s*Title:\s*(.*)$` (case-insensitive). -/
def matchTitleLine (l : List Char) : Option String :=
  match matchCI "title:".data (dropWS l) with
  | some rest => some (String.mk (dropWS rest))
  | none => none

/-- LEADS_RE `^\s*Leads to:\s*\[(.+?)\]\s*$` (case-insensitive). -/
def matchLeads (l : List Char) : Option String :=
  match matchCI "leads to:".data (dropWS l) with
  | none => none
  | some rest =>
      match dropWS rest with
      | [] => none
      | c :: cs =>
          if c = '[' then (lazyCapRBEnd cs).map String.mk else none

/-- The tail `\s*->\s*\[(.+?)\]\s*$` of PATH_RE, tried at a candidate
    closing quote of the label. -/
def pathTail (l : List Char) : Option String :=
  match dropWS l with
  | '-' :: '>' :: rest =>
      match dropWS rest with
      | [] => none
      | c :: cs => if c = '[' then (lazyCapRBEnd cs).map String.mk else none
  | _ => none

/-- `"(.+?)"` of PATH_RE with full backtracking: a closing quote is only
    accepted if the rest of the pattern matches after it, otherwise the
    quote becomes part of the label and the search continues. -/
def lazyLabelAux (acc : List Char) : List Char → Option (String × String)
  | [] => none
  | c :: rest =>
      if c = '"' then
        match pathTail rest with
        | some nid => some (String.mk acc.reverse, nid)
        | none => lazyLabelAux (c :: acc) rest
      else lazyLabelAux (c :: acc) rest

/-- PATH_RE `^\s*Path\s+"(.+?)"\s*->\s*\[(.+?)\]\s*$` (case-insensitive);
    returns the label capture and the id capture. -/
def matchPath (l : List Char) : Option (String × String) :=
  match matchCI "path".data (dropWS l) with
  | none => none
  | some rest =>
      match rest with
      | [] => none
      | c :: _ =>
          if isWS c then
            match dropWS rest with
            | '"' :: [] => none
            | '"' :: c1 :: cs => lazyLabelAux [c1] cs
            | _ => none
          else none

/-- A parsed node: `id`, `kind`, `title`, `details_lines`. -/
structure PNode where
  id : String
  kind : String
  title : String
  details_lines : List String
  deriving Repr, DecidableEq

/-- Association-list lookup (Python `dict.get` / `in`). -/
def alGet {β : Type} (k : String) : List (String × β) → Option β
  | [] => none
  | (k', v) :: rest => if k = k' then some v else alGet k rest

/-- Update the value stored at an existing key, leaving the key order and
    every other entry unchanged. -/
def alModify {β : Type} (k : String) (f : β → β) : List (String × β) → List (String × β)
  | [] => []
  | (k', v) :: rest => if k = k' then (k', f v) :: rest else (k', v) :: alModify k f rest

/-- `kind.lower()` followed by the `information -> info` normalisation
    (the keyword match already yields the lowercase keyword). -/
def normKind (kind : String) : String := if kind = "information" then "info" else kind

/-- Parser state: insertion-ordered node dict, edge list in declaration
    order, start ids, and the current node cursor. -/
structure ParseState where
  nodes : List (String × PNode)
  edges : List (String × String × String)
  start_ids : List String
  current_id : Option String
  current_kind : Option String
  deriving Repr, DecidableEq

/-- One iteration of the parser's line loop. -/
def parseLine (st : ParseState) (line : String) : ParseState :=
  let l := line.data
  if (stripL l).isEmpty then st
  else
    match matchNode l with
    | some (kind0, nidRaw, restRaw) =>
        let kind := normKind kind0
        let nid := pyStrip nidRaw
        let rest := pyStrip restRaw
        let nodes1 :=
          if (alGet nid st.nodes).isSome then st.nodes
          else st.nodes ++ [(nid, ⟨nid, kind, "", []⟩)]
        let nodes2 :=
          if (kind = "start" || kind = "end" || kind = "decision") && rest ≠ "" then
            alModify nid (fun n => { n with title := rest }) nodes1
          else nodes1
        let starts :=
          if kind = "start" then st.start_ids ++ [nid] else st.start_ids
        { st with nodes := nodes2, start_ids := starts,
                  current_id := some nid, current_kind := some kind }
    | none =>
    match matchDetails l, st.current_id with
    | some txt, some cur =>
        { st with nodes := alModify cur (fun n => { n with details_lines := n.details_lines ++ [txt] }) st.nodes }
    | _, _ =>
    match matchTitleLine l, st.current_id with
    | some txt, some cur =>
        { st with nodes := alModify cur (fun n => { n with title := pyStrip txt }) st.nodes }
    | _, _ =>
    match matchLeads l, st.current_id with
    | some nid, some cur =>
        { st with edges := st.edges ++ [(cur, pyStrip nid, "")] }
    | _, _ =>
    match matchPath l, st.current_id, st.current_kind with
    | some (lbl, nid), some cur, some ck =>
        if ck = "decision" then
          { st with edges := st.edges ++ [(cur, pyStrip nid, pyStrip lbl)] }
        else st
    | _, _, _ => st

/-- Split the schema text at `\n` (structurally, so that the kernel can
    evaluate it). -/
def splitLinesAux (acc : List Char) : List Char → List String
  | [] => [String.mk acc.reverse]
  | c :: rest =>
      if c = '\n' then String.mk acc.reverse :: splitLinesAux [] rest
      else splitLinesAux (c :: acc) rest

/-- Split the schema text into lines (the inputs use `\n` terminators;
    `splitlines` followed by `rstrip("\n")` yields exactly these lines,
    except that a final empty fragment after a trailing `\n` is blank and
    is skipped by the loop either way). -/
def splitLines (t : String) : List String := splitLinesAux [] t.data

/-- `parse_schema_details_only`: fold the line loop over the text. -/
def parse_schema_details_only (text : String) :
    List (String × PNode) × List (String × String × String) × List String :=
  let st := (splitLines text).foldl parseLine ⟨[], [], [], none, none⟩
  (st.nodes, st.edges, st.start_ids)

/-! ## Decision routing (`plan_decision_routes`) -/

/-- The outgoing `(dest, label)` pairs of a source, in edge-declaration
    order (the `out_by_src` defaultdict built by one pass over `edges`). -/
def outBySrc (edges : List (String × String × String)) (u : String) :
    List (String × String) :=
  edges.filterMap (fun e => if e.1 = u then some (e.2.1, e.2.2) else none)

/-- The sort key `(t[1] != "Yes", t[1])` compares `False` before `True`
    and then labels lexicographically; `outLe a b` holds when `a`'s key
    is not strictly greater than `b`'s, which is the order in which a
    stable sort keeps `a` before `b`. -/
def keyLt (a b : String × String) : Bool :=
  let ka : Bool := a.2 ≠ "Yes"
  let kb : Bool := b.2 ≠ "Yes"
  (!ka && kb) || (ka = kb && decide (a.2 < b.2))

/-- Non-strict comparison used by the stable insertion sort. -/
def outLe (a b : String × String) : Bool := !keyLt b a

/-- Stable insertion of one element: it goes in front of the first
    element it is not strictly after, so elements with equal keys keep
    their original relative order — the behaviour of Python's stable
    `sorted`. -/
def insOut (a : String × String) : List (String × String) → List (String × String)
  | [] => [a]
  | b :: l => if outLe a b then a :: b :: l else b :: insOut a l

/-- Stable sort of the outgoing edges by `(label != "Yes", label)`. -/
def sortOuts : List (String × String) → List (String × String)
  | [] => []
  | a :: l => insOut a (sortOuts l)

/-- Python dict assignment `d[k] = v` on an association list keyed by
    `(decision_id, dest_id)`: overwrite in place if present, append
    otherwise. -/
def rpInsert (k : String × String) (v : String) :
    List ((String × String) × String) → List ((String × String) × String)
  | [] => [(k, v)]
  | (k', v') :: rest =>
      if k = k' then (k, v) :: rest else (k', v') :: rpInsert k v rest

/-- Lookup `route_pref.get((u, v))`. -/
def rpGet (k : String × String) : List ((String × String) × String) → Option String
  | [] => none
  | (k', v) :: rest => if k = k' then some v else rpGet k rest

/-- The writes `plan_decision_routes` performs for one node of the dict. -/
def planNode (edges : List (String × String × String))
    (rp : List ((String × String) × String)) (entry : String × PNode) :
    List ((String × String) × String) :=
  let nid := entry.1
  if entry.2.kind ≠ "decision" then rp
  else
    match sortOuts (outBySrc edges nid) with
    | [] => rp
    | [o] => rpInsert (nid, o.1) "down" rp
    | o0 :: o1 :: _ => rpInsert (nid, o1.1) "down" (rpInsert (nid, o0.1) "right" rp)

/-- `plan_decision_routes`: iterate over the node dict in insertion
    order, sorting each decision's outgoing edges Yes-first and then
    lexicographically, and record `right` for the first and `down` for
    the second (or `down` alone for a single outgoing edge). -/
def plan_decision_routes (nodes : List (String × PNode))
    (edges : List (String × String × String)) :
    List ((String × String) × String) :=
  nodes.foldl (planNode edges) []

/-! ## Column assignment (`assign_columns`)

The queue loop is not structurally terminating (on cyclic graphs the
Python loop runs forever), so it takes a fuel argument.  Python runtime
errors — the `KeyError` raised when an edge destination is not a node
key, and the `TypeError` of comparing or incrementing `None` — are
collapsed into a single error outcome. -/

/-- Outcome of `assign_columns`: a finished column dict, a Python
    runtime error, or fuel exhaustion (the Python loop still running). -/
inductive ColResult where
  | done (col : List (String × Nat)) : ColResult
  | error : ColResult
  | fuelOut : ColResult
  deriving Repr, DecidableEq

/-- The mutable state of the queue loop: the column dict (`none` values
    are Python `None`), the `indeg` defaultdict, and the queue. -/
structure ColState where
  col : List (String × Option Nat)
  indeg : List (String × Int)
  q : List String
  deriving Repr, DecidableEq

/-- `indeg[v]` of the defaultdict: missing keys read as 0. -/
def indegGet (k : String) (l : List (String × Int)) : Int :=
  match alGet k l with
  | some n => n
  | none => 0

/-- `indeg[v] += d` on the defaultdict: inserts the key if absent. -/
def indegAdd (k : String) (d : Int) : List (String × Int) → List (String × Int)
  | [] => [(k, d)]
  | (k', n) :: rest =>
      if k = k' then (k', n + d) :: rest else (k', n) :: indegAdd k d rest

/-- `col[s] = 0` during seeding: overwrites an existing key and inserts
    a fresh one otherwise (a seed id need not be a node id). -/
def colSet (k : String) (v : Option Nat) : List (String × Option Nat) → List (String × Option Nat)
  | [] => [(k, v)]
  | (k', v') :: rest =>
      if k = k' then (k', v) :: rest else (k', v') :: colSet k v rest

/-- The adjacency dict `adj` read back as a list: all edge destinations
    of `u` in edge order (`adj.get(u, [])`). -/
def adjGet (edges : List (String × String × String)) (u : String) : List String :=
  (outBySrc edges u).map Prod.fst

/-- The candidate column an out-edge of `u` proposes for its
    destination: `cu + 1` when `u` is a decision and the routing
    preference of the edge is `right`, otherwise `cu`. -/
def candCol (isDecision : Bool) (pref : Option String) (cu : Nat) : Nat :=
  if isDecision && pref = some "right" then cu + 1 else cu

/-- `if col[v] is None or dv > col[v]: col[v] = dv` — the stored column
    becomes the maximum of the previous value and the candidate. -/
def relaxVal (old : Option Nat) (dv : Nat) : Option Nat :=
  match old with
  | none => some dv
  | some c => if dv > c then some dv else some c

/-- Process one destination `v` of the popped node `u` (one iteration of
    `for v in adj.get(u, [])`). -/
def relaxEdge (nodes : List (String × PNode))
    (rp : List ((String × String) × String)) (u : String) (cu : Nat)
    (st : ColState) (v : String) : Except Unit ColState :=
  let pref := rpGet (u, v) rp
  match alGet u nodes with
  | none => .error ()   -- nodes[u] KeyError
  | some nd =>
      let dv := candCol (nd.kind = "decision") pref cu
      match alGet v st.col with
      | none => .error ()   -- col[v] KeyError: v is not a node id
      | some old =>
          let col' := colSet v (relaxVal old dv) st.col
          let indeg' := indegAdd v (-1) st.indeg
          let q' := if indegGet v indeg' ≤ 0 then st.q ++ [v] else st.q
          .ok { col := col', indeg := indeg', q := q' }

/-- Fold `relaxEdge` over the adjacency list, stopping at the first
    Python error. -/
def relaxAll (nodes : List (String × PNode))
    (rp : List ((String × String) × String)) (u : String) (cu : Nat) :
    ColState → List String → Except Unit ColState
  | st, [] => .ok st
  | st, v :: vs =>
      match relaxEdge nodes rp u cu st v with
      | .error e => .error e
      | .ok st' => relaxAll nodes rp u cu st' vs

/-- Outcome of the bare `while q:` loop, before normalisation. -/
inductive LoopRes where
  | finished (col : List (String × Option Nat)) : LoopRes
  | error : LoopRes
  | fuelOut : LoopRes
  deriving Repr, DecidableEq

/-- The `while q:` loop, with fuel. -/
def colLoop (nodes : List (String × PNode))
    (edges : List (String × String × String))
    (rp : List ((String × String) × String)) :
    Nat → ColState → LoopRes
  | 0, _ => .fuelOut
  | fuel + 1, st =>
      match st.q with
      | [] => .finished st.col
      | u :: qRest =>
          match alGet u st.col with
          | none => .error          -- cu = col[u] KeyError
          | some none => .error     -- cu is None: dv computation / comparison TypeError
          | some (some cu) =>
              match relaxAll nodes rp u cu { st with q := qRest } (adjGet edges u) with
              | .error _ => .error
              | .ok st' => colLoop nodes edges rp fuel st'

/-- The final normalisation pass `col[k] = (col[k] or base) - base`: both
    `None` and `0` are falsy, so they read as `base`. -/
def normCol (base : Nat) (c : Option Nat) : Nat :=
  match c with
  | none => base - base
  | some 0 => base - base
  | some n => n - base

/-- `assign_columns`: seed the queue with the start ids (or the first
    node id when there are none), run the relaxation loop, and normalise
    so the minimum assigned column is 0. -/
def assign_columns (nodes : List (String × PNode))
    (edges : List (String × String × String))
    (start_ids : List String)
    (rp : List ((String × String) × String)) (fuel : Nat) : ColResult :=
  match nodes with
  | [] => .done []
  | n0 :: _ =>
      let seeds := if start_ids.isEmpty then [n0.1] else start_ids
      let col0 : List (String × Option Nat) := nodes.map (fun n => (n.1, none))
      let col1 := seeds.foldl (fun c s => colSet s (some 0) c) col0
      let indeg0 := edges.foldl (fun d e => indegAdd e.2.1 1 d) []
      let st0 : ColState := { col := col1, indeg := indeg0, q := seeds }
      match colLoop nodes edges rp fuel st0 with
      | .error => .error
      | .fuelOut => .fuelOut
      | .finished colF =>
          match (colF.filterMap (fun p => p.2)).min? with
          | none => .error   -- min() of an empty sequence: ValueError
          | some base => .done (colF.map (fun p => (p.1, normCol base p.2)))

/-! ## Row ordering (`order_within_columns`) -/

/-- State of the Kahn loop: in-degrees, queue, emitted order, seen set. -/
structure TopoState where
  indeg : List (String × Int)
  q : List String
  topo : List String
  seen : List String
  deriving Repr

/-- The `while q:` loop of `order_within_columns`, with fuel (the Python
    loop always terminates since only unseen pops enqueue). -/
def topoLoop (edges : List (String × String × String)) :
    Nat → TopoState → Option (List String)
  | 0, _ => none
  | fuel + 1, st =>
      match st.q with
      | [] => some st.topo
      | u :: qRest =>
          if st.seen.contains u then
            topoLoop edges fuel { st with q := qRest }
          else
            let st1 : TopoState :=
              { st with q := qRest, seen := st.seen ++ [u], topo := st.topo ++ [u] }
            let st2 := (adjGet edges u).foldl
              (fun s v =>
                let indeg' := indegAdd v (-1) s.indeg
                let q' := if indegGet v indeg' ≤ 0 then s.q ++ [v] else s.q
                { s with indeg := indeg', q := q' })
              st1
            topoLoop edges fuel st2

/-- Kahn topological order over the node ids (queue seeded with the
    in-degree-zero nodes, in node-dict order). -/
def topoOrder (ids : List String) (edges : List (String × String × String))
    (fuel : Nat) : Option (List String) :=
  let indeg0 := edges.foldl (fun d e => indegAdd e.2.1 1 d) []
  let q0 := ids.filter (fun n => indegGet n indeg0 = 0)
  topoLoop edges fuel { indeg := indeg0, q := q0, topo := [], seen := [] }

/-- `rank.get(n, 0)`: position in the topological order, defaulting to 0
    for nodes the Kahn loop never emitted. -/
def rankOf (topo : List String) (n : String) : Nat :=
  (topo.findIdx? (· = n)).getD 0

/-- Stable insertion by rank (Python's stable `list.sort(key=...)`). -/
def insRank (r : String → Nat) (a : String × PNode) :
    List (String × PNode) → List (String × PNode)
  | [] => [a]
  | b :: l => if r a.1 ≤ r b.1 then a :: b :: l else b :: insRank r a l

/-- Stable sort of one column's node entries by topological rank. -/
def sortRank (r : String → Nat) : List (String × PNode) → List (String × PNode)
  | [] => []
  | a :: l => insRank r a (sortRank r l)

/-- `by_col[c]`: the nodes of column `c` in node-dict order, sorted by
    ascending topological rank (the column dict always holds every node
    id, so the lookup default is never taken). -/
def byColEntries (nodes : List (String × PNode)) (cols : List (String × Nat))
    (topo : List String) (c : Nat) : List (String × PNode) :=
  sortRank (rankOf topo) (nodes.filter (fun p => (alGet p.1 cols).getD 0 = c))

/-! ## Geometry: EMU constants, rectangles, segments, lanes -/

/-- EMU values of the `Inches(...)` constants the program uses
    (python-pptx truncates `x * 914400`; `Inches(13.333)` is 12191695,
    all the other constants are exact). -/
def SLIDE_W : Int := 12191695
def SLIDE_H : Int := 6858000
def MARGIN_L : Int := 548640      -- Inches(0.6)
def MARGIN_R : Int := 548640
def MARGIN_T : Int := 1005840     -- Inches(1.1)
def MARGIN_B : Int := 548640
def V_GAP : Int := 274320         -- Inches(0.3)
def H_GAP0 : Int := 914400        -- Inches(1.0)
def BOX_W0 : Int := 2743200       -- Inches(3.0)
def BOX_H : Int := 822960         -- Inches(0.9)
def BOX_H_MIN : Int := 640080     -- Inches(0.7)
def SE_W0 : Int := 1463040        -- Inches(1.6)
def SE_H : Int := 502920          -- Inches(0.55)
def PAD : Int := 45720            -- Inches(0.05)
def GUTTER_OFF : Int := 109728    -- Inches(0.12)
def LANE_OFF : Int := 548640      -- Inches(0.6)
def EXTRA_AFTER_DECISION : Int := 228600  -- Inches(0.25)
def DECISION_H_MIN : Int := 1005840       -- Inches(1.1)
def SHAPE_DECISION_MIN : Int := 914400    -- Inches(1.0)

def usable_h : Int := SLIDE_H - MARGIN_T - MARGIN_B
def usable_w : Int := SLIDE_W - MARGIN_L - MARGIN_R

/-- The serpentine chunk capacity computed by `render`:
    `per_col = max(1, (usable_h + v_gap) // (box_h + v_gap))`.  All the
    quantities are fixed EMU constants, so this is a constant. -/
def per_col : Int := max 1 ((usable_h + V_GAP).fdiv (BOX_H + V_GAP))

/-- A placed box rectangle `(left, top, width, height)` in EMU. -/
structure Rct where
  x : Int
  y : Int
  w : Int
  h : Int
  deriving Repr, DecidableEq

/-- A point in EMU. -/
abbrev Pt := Int × Int

/-- A drawn connector segment with its arrowhead flag. -/
structure Seg where
  p : Pt
  q : Pt
  arrow : Bool
  deriving Repr, DecidableEq

/-- The lane-usage sets `used_h : set[(y, x1, x2)]` and
    `used_v : set[(x, y1, y2)]` (lists here; only membership matters). -/
structure Used where
  h : List (Int × Int × Int)
  v : List (Int × Int × Int)
  deriving Repr, DecidableEq

/-- `segment_hits_rect`: an axis-aligned segment hits a padded rectangle
    when it lies within the padded span on the perpendicular axis
    (boundary included) and overlaps the padded range on the parallel
    axis; non-axis-aligned segments always count as hits. -/
def segment_hits_rect (x1 y1 x2 y2 : Int) (r : Rct) (pad : Int) : Bool :=
  let nx := r.x - pad
  let ny := r.y - pad
  let nw := r.w + 2 * pad
  let nh := r.h + 2 * pad
  if x1 = x2 then
    let top := min y1 y2
    let bottom := max y1 y2
    (decide (nx ≤ x1) && decide (x1 ≤ nx + nw)) &&
      !(decide (ny + nh ≤ top) || decide (ny ≥ bottom))
  else if y1 = y2 then
    let left := min x1 x2
    let right := max x1 x2
    (decide (ny ≤ y1) && decide (y1 ≤ ny + nh)) &&
      !(decide (nx + nw ≤ left) || decide (nx ≥ right))
  else true

/-- `path_clear`: the segment from `a` to `b` hits none of the rects. -/
def path_clear (a b : Pt) (rects : List Rct) (pad : Int) : Bool :=
  rects.all (fun r => !segment_hits_rect a.1 a.2 b.1 b.2 r pad)

/-- `lane_free`: a vertical candidate must not overlap any used vertical
    lane at the same x, a horizontal one any used horizontal lane at the
    same y (touching at an endpoint is allowed); with `ignore_lanes` the
    check is skipped. -/
def lane_free (a b : Pt) (used : Used) (ignore_lanes : Bool) : Bool :=
  if ignore_lanes then true
  else if a.1 = b.1 then
    let lo := min a.2 b.2
    let hi := max a.2 b.2
    used.v.all (fun e => !(decide (e.1 = a.1) && !(decide (e.2.2 ≤ lo) || decide (e.2.1 ≥ hi))))
  else if a.2 = b.2 then
    let lo := min a.1 b.1
    let hi := max a.1 b.1
    used.h.all (fun e => !(decide (e.1 = a.2) && !(decide (e.2.2 ≤ lo) || decide (e.2.1 ≥ hi))))
  else true

/-- `add_seg_registered`: record the drawn segment in the lane sets
    (vertical if `x1 == x2`, else horizontal if `y1 == y2`; diagonal
    last-resort segments are drawn but not recorded). -/
def regSeg (s : Seg) (used : Used) : Used :=
  if s.p.1 = s.q.1 then
    { used with v := (s.p.1, min s.p.2 s.q.2, max s.p.2 s.q.2) :: used.v }
  else if s.p.2 = s.q.2 then
    { used with h := (s.p.2, min s.p.1 s.q.1, max s.p.1 s.q.1) :: used.h }
  else used

/-! ## The connector router (`route_orthogonal_detour`) -/

/-- Which of the four stages produced the connector. -/
inductive RouteKind where
  | elbow1 : RouteKind     -- horizontal-then-vertical L
  | elbow2 : RouteKind     -- vertical-then-horizontal L
  | gutterH : RouteKind    -- 3-segment path through a horizontal gutter
  | gutterV : RouteKind    -- 3-segment path through a vertical gutter
  | fallback : RouteKind   -- direct segment regardless of clearance
  deriving Repr, DecidableEq

/-- A routed connector: its segments in draw order, the updated lane
    sets, and the stage that produced it. -/
structure RouteRes where
  segs : List Seg
  used : Used
  kind : RouteKind
  deriving Repr

/-- Ascending insertion for `sorted(...)` over EMU coordinates. -/
def insInt (a : Int) : List Int → List Int
  | [] => [a]
  | b :: l => if a ≤ b then a :: b :: l else b :: insInt a l

def sortInts : List Int → List Int
  | [] => []
  | a :: l => insInt a (sortInts l)

/-- Remove adjacent duplicates of a sorted list (`sorted(set(...))`). -/
def dedupAdj : List Int → List Int
  | [] => []
  | [a] => [a]
  | a :: b :: l => if a = b then dedupAdj (b :: l) else a :: dedupAdj (b :: l)

def sortedSet (l : List Int) : List Int := dedupAdj (sortInts l)

/-- Clearance and lane admissibility of a full 3-point candidate. -/
def ok3 (a b c d : Pt) (rects : List Rct) (used : Used) (ignore : Bool) : Bool :=
  path_clear a b rects PAD && path_clear b c rects PAD && path_clear c d rects PAD &&
    lane_free a b used ignore && lane_free b c used ignore && lane_free c d used ignore

/-- Register a 2-segment elbow (arrowhead on the second segment). -/
def accept2 (p1 e p2 : Pt) (used : Used) (k : RouteKind) : RouteRes :=
  let s1 : Seg := ⟨p1, e, false⟩
  let s2 : Seg := ⟨e, p2, true⟩
  ⟨[s1, s2], regSeg s2 (regSeg s1 used), k⟩

/-- Register a 3-segment gutter path (arrowhead on the last segment). -/
def accept3 (a b c d : Pt) (used : Used) (k : RouteKind) : RouteRes :=
  let s1 : Seg := ⟨a, b, false⟩
  let s2 : Seg := ⟨b, c, false⟩
  let s3 : Seg := ⟨c, d, true⟩
  ⟨[s1, s2, s3], regSeg s3 (regSeg s2 (regSeg s1 used)), k⟩

/-- `route_orthogonal_detour`: try the horizontal-then-vertical elbow,
    the vertical-then-horizontal elbow, the horizontal gutters and then
    the vertical gutters in ascending coordinate order, accepting the
    first obstacle-clear, lane-free candidate; if everything fails, draw
    the direct segment from source to destination regardless of
    clearance. -/
def route_orthogonal_detour (p1 p2 : Pt) (rects_all : List Rct)
    (exclude_rects : List Rct) (used : Used) (ignore_lanes : Bool) : RouteRes :=
  let rects := rects_all.filter (fun r => !exclude_rects.contains r)
  let elbow1 : Pt := (p2.1, p1.2)
  let elbow2 : Pt := (p1.1, p2.2)
  if path_clear p1 elbow1 rects PAD && path_clear elbow1 p2 rects PAD &&
      lane_free p1 elbow1 used ignore_lanes && lane_free elbow1 p2 used ignore_lanes then
    accept2 p1 elbow1 p2 used .elbow1
  else if path_clear p1 elbow2 rects PAD && path_clear elbow2 p2 rects PAD &&
      lane_free p1 elbow2 used ignore_lanes && lane_free elbow2 p2 used ignore_lanes then
    accept2 p1 elbow2 p2 used .elbow2
  else
    let xs := sortedSet ((rects.map (fun r => r.x - GUTTER_OFF)) ++
                         (rects.map (fun r => r.x + r.w + GUTTER_OFF)))
    let ys := sortedSet ((rects.map (fun r => r.y - GUTTER_OFF)) ++
                         (rects.map (fun r => r.y + r.h + GUTTER_OFF)))
    match ys.find? (fun yg =>
        ok3 p1 (p1.1, yg) (p2.1, yg) p2 rects used ignore_lanes) with
    | some yg => accept3 p1 (p1.1, yg) (p2.1, yg) p2 used .gutterH
    | none =>
        match xs.find? (fun xg =>
            ok3 p1 (xg, p1.2) (xg, p2.2) p2 rects used ignore_lanes) with
        | some xg => accept3 p1 (xg, p1.2) (xg, p2.2) p2 used .gutterV
        | none =>
            let s : Seg := ⟨p1, p2, true⟩
            ⟨[s], regSeg s used, .fallback⟩

/-! ## Box sizing (`_wrap_lines`, `estimate_action_height`, `node_height`)

The PIL font is an external collaborator: `font.getlength` and
`font.getmetrics()` are modelled by an explicit record. -/

/-- The PIL font metrics consumed by the sizing code. -/
structure FontM where
  len : String → Int    -- font.getlength
  ascent : Int          -- font.getmetrics()[0]
  descent : Int         -- font.getmetrics()[1]

/-- `raw.replace('/', ' / ').replace('-', ' - ')` as one character pass
    (the first replacement introduces no `-`, so the two replacements
    commute into it). -/
def expandSeps : List Char → List Char
  | [] => []
  | c :: l => if c = '/' || c = '-' then ' ' :: c :: ' ' :: expandSeps l else c :: expandSeps l

/-- Python `str.split()`: maximal runs of non-whitespace. -/
def pyWordsAux (acc : List Char) : List Char → List String
  | [] => if acc.isEmpty then [] else [String.mk acc.reverse]
  | c :: rest =>
      if isWS c then
        if acc.isEmpty then pyWordsAux [] rest
        else String.mk acc.reverse :: pyWordsAux [] rest
      else pyWordsAux (c :: acc) rest

def pyWords (s : String) : List String := pyWordsAux [] s.data

/-- The token list of `_wrap_lines`: whitespace-split words, further
    split around `/` and `-`. -/
def wrapTokens (text : String) : List String :=
  ((pyWords text).map (fun raw => pyWords (String.mk (expandSeps raw.data)))).flatten

/-- The character-level hard break of an over-wide token; returns the
    flushed lines and the pending `piece` that becomes `cur`. -/
def charBreak (m : String → Int) (maxPx : Int) :
    List String → String → List Char → List String × String
  | lines, piece, [] => (lines, piece)
  | lines, piece, ch :: rest =>
      let nxt := piece.push ch
      if m nxt ≤ maxPx then charBreak m maxPx lines nxt rest
      else
        let lines' := if piece ≠ "" then lines ++ [piece] else lines
        charBreak m maxPx lines' (String.mk [ch]) rest

/-- One step of the greedy wrap over `tokens[1:]`. -/
def wrapStep (m : String → Int) (maxPx : Int)
    (st : List String × String) (t : String) : List String × String :=
  let lines := st.1
  let cur := st.2
  let trial := cur ++ " " ++ t
  if m trial ≤ maxPx then (lines, trial)
  else if m t > maxPx then
    let lines1 := if cur ≠ "" then lines ++ [cur] else lines
    charBreak m maxPx lines1 "" t.data
  else (lines ++ [cur], t)

/-- `_wrap_lines`: greedy word wrap against `max_px`, hard-breaking
    tokens wider than the budget character by character. -/
def wrap_lines (m : String → Int) (maxPx : Int) (text : String) : List String :=
  match wrapTokens text with
  | [] => [""]
  | t0 :: ts =>
      let r := ts.foldl (wrapStep m maxPx) ([], t0)
      if r.2 ≠ "" then r.1 ++ [r.2] else r.1

/-- `estimate_action_height`: wrapped line count of title and details,
    converted to EMU.  `max_px = int(float(box_w - Inches(0.2)) * 96.0)`
    is taken verbatim from the source (the EMU value is multiplied by
    the DPI directly).  The float expression
    `Inches(0.32 + (total * line_h / 96) * 1.18)` is modelled by its
    exact rational value `292608 + total * line_h * 22479 / 2` (floor):
    `914400 * 1.18 / 96 = 22479 / 2`. -/
def estimate_action_height (fm : FontM) (box_w : Int) (nd : PNode) : Int :=
  let max_px := (box_w - 182880) * 96
  let line_h := fm.ascent + fm.descent + 2
  let titleLines : Int :=
    if nd.title ≠ "" then ((wrap_lines fm.len max_px nd.title).length : Int) else 0
  let detailLines : Int :=
    (nd.details_lines.map
      (fun line => (max 1 (wrap_lines fm.len max_px (pyStrip line)).length : Int))).sum
  let total := titleLines + detailLines
  let h := 292608 + (total * line_h * 22479).fdiv 2
  max BOX_H_MIN h

/-- `node_height`: decisions have a fixed floor, start/end are the fixed
    lozenge height, action/info boxes are sized from their content. -/
def node_height (fm : FontM) (box_w : Int) (nd : PNode) : Int :=
  if nd.kind = "decision" then max BOX_H DECISION_H_MIN
  else if nd.kind = "start" || nd.kind = "end" then SE_H
  else estimate_action_height fm box_w nd

/-! ## Placement (`render`: serpentine chunks, auto-scale, box shapes) -/

/-- Split a column's nodes into serpentine chunks of `n` (Python
    `items[i:i+per_col]`; the program always calls this with `n ≥ 1`). -/
def chunksOfB {α : Type} (n : Nat) : Nat → List α → List (List α)
  | _, [] => []
  | 0, a :: l => [a :: l]
  | b + 1, a :: l => (a :: l.take (n - 1)) :: chunksOfB n b (l.drop (n - 1))

def chunksOf {α : Type} (n : Nat) (l : List α) : List (List α) :=
  chunksOfB n l.length l

/-- The geometry of one placed shape (`add_node_shape`): start/end
    lozenges are re-centred at the override size, decision diamonds get
    a 1-inch height floor, other boxes use the passed rectangle. -/
def shapeRect (kind : String) (left top width height se_w : Int) : Rct :=
  if kind = "start" || kind = "end" then
    ⟨left + (width - se_w).fdiv 2, top, se_w, SE_H⟩
  else if kind = "decision" then ⟨left, top, width, max height SHAPE_DECISION_MIN⟩
  else ⟨left, top, width, height⟩

/-- The decision nodes that route some edge downward (the
    `decisions_with_down` set); a `KeyError` on an undeclared edge
    source is an error outcome. -/
def decisionsWithDown (nodes : List (String × PNode))
    (rp : List ((String × String) × String))
    (edges : List (String × String × String)) : Except Unit (List String) :=
  edges.foldlM
    (fun acc e =>
      match alGet e.1 nodes with
      | none => .error ()
      | some nd =>
          .ok (if nd.kind = "decision" && rpGet (e.1, e.2.1) rp = some "down" then
                 acc ++ [e.1]
               else acc))
    []

/-- Total stacked height of a chunk: heights plus inter-node gaps, with
    extra clearance after a decision that routes downward (the extra is
    only added between nodes, not after the last one). -/
def chunkTotalH (fm : FontM) (box_w : Int) (dwd : List String) :
    List (String × PNode) → Int
  | [] => 0
  | [p] => node_height fm box_w p.2
  | p :: q :: l =>
      node_height fm box_w p.2 + V_GAP +
        (if dwd.contains p.1 then EXTRA_AFTER_DECISION else 0) +
        chunkTotalH fm box_w dwd (q :: l)

/-- Place the nodes of one chunk top to bottom from `y`. -/
def placeChunk (fm : FontM) (box_w se_w : Int) (dwd : List String) (x : Int) :
    Int → List (String × PNode) → List (String × Rct)
  | _, [] => []
  | y, p :: rest =>
      let h := node_height fm box_w p.2
      (p.1, shapeRect p.2.kind x y box_w h se_w) ::
        placeChunk fm box_w se_w dwd x
          (y + h + V_GAP + (if dwd.contains p.1 then EXTRA_AFTER_DECISION else 0)) rest

/-- Place every chunk; each chunk is vertically centred in the usable
    area and the x cursor advances one column per chunk. -/
def placeAll (fm : FontM) (box_w h_gap se_w : Int) (dwd : List String) :
    Int → List (List (String × PNode)) → List (String × Rct)
  | _, [] => []
  | x, chunk :: rest =>
      let total := chunkTotalH fm box_w dwd chunk
      let y0 := MARGIN_T + max 0 ((usable_h - total).fdiv 2)
      placeChunk fm box_w se_w dwd x y0 chunk ++
        placeAll fm box_w h_gap se_w dwd (x + box_w + h_gap) rest

/-! ## The connector loop of `render` -/

def mid_left (r : Rct) : Pt := (r.x, r.y + r.h.fdiv 2)
def mid_right (r : Rct) : Pt := (r.x + r.w, r.y + r.h.fdiv 2)
def top_mid (r : Rct) : Pt := (r.x + r.w.fdiv 2, r.y)
def bottom_mid (r : Rct) : Pt := (r.x + r.w.fdiv 2, r.y + r.h)

/-- Result of drawing one edge: the router's segments in draw order, the
    router stage used, whether lane checks were disabled for its route,
    and the shared destination-arrival segment when the edge approached
    its destination through the shared left-side lane. -/
structure EdgeOut where
  route : List Seg
  kind : RouteKind
  ignored : Bool
  arrival : Option Seg
  deriving Repr, DecidableEq

/-- All segments drawn for one edge (router segments, then the shared
    arrival segment when present). -/
def EdgeOut.segs (o : EdgeOut) : List Seg := o.route ++ o.arrival.toList

/-- Mutable state across the edge loop: the lane-usage sets and the
    shared arrival-lane cache `dest_entry_lane`. -/
structure RenderSt where
  used : Used
  lanes : List ((String × String) × (Pt × Pt))
  deriving Repr, DecidableEq

/-- `dest_entry_lane` lookup. -/
def laneGet (k : String × String) :
    List ((String × String) × (Pt × Pt)) → Option (Pt × Pt)
  | [] => none
  | (k', v) :: rest => if k = k' then some v else laneGet k rest

/-- `incoming_counts[v]`: number of edges whose destination is `v`. -/
def incomingCount (edges : List (String × String × String)) (v : String) : Nat :=
  (edges.filter (fun e => e.2.1 = v)).length

/-- Canonical shared arrival lane for a destination rectangle: the
    attach point on its left edge and the lane point `0.6"` to its
    left. -/
def canonLane (sv : Rct) : Pt × Pt :=
  (mid_left sv, (sv.x - LANE_OFF, sv.y + sv.h.fdiv 2))

/-- Draw one edge: pick the branch exactly as the loop body of `render`
    does, route it, and register the shared arrival segment when the
    destination is approached from the left. -/
def processEdge (shapes : List (String × Rct)) (rects_all : List Rct)
    (rp : List ((String × String) × String)) (incoming : String → Nat)
    (st : RenderSt) (e : String × String × String) :
    Except Unit (RenderSt × EdgeOut) :=
  let u := e.1
  let v := e.2.1
  match alGet u shapes, alGet v shapes with
  | some su, some sv =>
      let pref := rpGet (u, v) rp
      let allow_share := incoming v > 1
      let exclude := [su, sv]
      let leftSide : Bool :=
        pref = some "right" ||
          (!(pref = some "right") && !(pref = some "down") &&
            (decide (sv.x > su.x + su.w) || !(decide (sv.y > su.y))))
      if leftSide then
        let p1 := mid_right su
        let key := (v, "left")
        let lanes1 :=
          if (laneGet key st.lanes).isSome then st.lanes
          else st.lanes ++ [(key, canonLane sv)]
        match laneGet key lanes1 with
        | some al =>
            let r := route_orthogonal_detour p1 al.2 rects_all exclude st.used allow_share
            let arr : Seg := ⟨al.2, al.1, true⟩
            .ok ({ used := regSeg arr r.used, lanes := lanes1 },
                 ⟨r.segs, r.kind, allow_share, some arr⟩)
        | none => .error ()   -- unreachable: the key was just ensured
      else
        let p1 := bottom_mid su
        let p2 := top_mid sv
        let r := route_orthogonal_detour p1 p2 rects_all exclude st.used false
        .ok ({ st with used := r.used }, ⟨r.segs, r.kind, false, none⟩)
  | _, _ => .error ()   -- id_to_shape KeyError

/-- The edge loop in declaration order. -/
def processEdges (shapes : List (String × Rct)) (rects_all : List Rct)
    (rp : List ((String × String) × String)) (incoming : String → Nat) :
    List (String × String × String) → RenderSt →
    Except Unit (RenderSt × List EdgeOut)
  | [], st => .ok (st, [])
  | e :: es, st =>
      match processEdge shapes rects_all rp incoming st e with
      | .error x => .error x
      | .ok (st', o) =>
          match processEdges shapes rects_all rp incoming es st' with
          | .error x => .error x
          | .ok (stF, os) => .ok (stF, o :: os)

/-! ## The full pipeline -/

/-- Result of one render pass over a schema text: the placed shapes, the
    per-edge connector output and the final lane sets — or the empty
    graph outcome, a Python runtime error, or fuel exhaustion. -/
inductive PipeResult where
  | ok (shapes : List (String × Rct)) (outs : List EdgeOut) (used : Used) : PipeResult
  | emptyGraph : PipeResult
  | error : PipeResult
  | fuelOut : PipeResult
  deriving Repr, DecidableEq

/-- The layout pipeline of `render`: parse, plan decision routes, assign
    columns, order rows, chunk, auto-scale, place boxes and draw every
    connector in edge-declaration order.  When scaling is needed,
    `int(value * scale)` is modelled by the exact rational floor
    `value * usable_w // needed_w`. -/
def pipeline (fm : FontM) (fuel : Nat) (text : String) : PipeResult :=
  let p := parse_schema_details_only text
  let nodes := p.1
  let edges := p.2.1
  let start_ids := p.2.2
  let rp := plan_decision_routes nodes edges
  match assign_columns nodes edges start_ids rp fuel with
  | .error => .error
  | .fuelOut => .fuelOut
  | .done cols =>
      if cols.isEmpty then .emptyGraph
      else
        match topoOrder (nodes.map Prod.fst) edges fuel with
        | none => .fuelOut
        | some topo =>
            let base_col_count := (cols.map Prod.snd).foldl max 0 + 1
            let allChunks := (List.range base_col_count).map
              (fun c => chunksOf per_col.toNat (byColEntries nodes cols topo c))
            let allChunks := allChunks.flatten
            let total_columns : Int := allChunks.length
            let needed_w := total_columns * BOX_W0 + (total_columns - 1) * H_GAP0
            let dims :=
              if needed_w > usable_w then
                ((BOX_W0 * usable_w).fdiv needed_w, (H_GAP0 * usable_w).fdiv needed_w,
                 (SE_W0 * usable_w).fdiv needed_w)
              else (BOX_W0, H_GAP0, SE_W0)
            match decisionsWithDown nodes rp edges with
            | .error _ => .error
            | .ok dwd =>
                let shapes := placeAll fm dims.1 dims.2.1 dims.2.2 dwd MARGIN_L allChunks
                let rects_all := shapes.map Prod.snd
                match processEdges shapes rects_all rp (incomingCount edges) edges
                    { used := ⟨[], []⟩, lanes := [] } with
                | .error _ => .error
                | .ok (stF, outs) => .ok shapes outs stF.used

/-! ## Definitions used to state the claims -/

/-- The column dict of a completed `assign_columns` run. -/
def colsOf : ColResult → List (String × Nat)
  | .done col => col
  | _ => []

/-- The placed boxes of a successful render. -/
def pipeShapes : PipeResult → List (String × Rct)
  | .ok shapes _ _ => shapes
  | _ => []

/-- The per-edge connector outputs of a successful render. -/
def pipeOuts : PipeResult → List EdgeOut
  | .ok _ outs _ => outs
  | _ => []

/-- The final lane-usage sets of a successful render. -/
def pipeUsed : PipeResult → Used
  | .ok _ _ used => used
  | _ => ⟨[], []⟩

/-- Every lane point cached in `dest_entry_lane` is the canonical shared
    arrival lane of its destination's placed shape. -/
def lanesCanon (shapes : List (String × Rct))
    (lanes : List ((String × String) × (Pt × Pt))) : Prop :=
  ∀ k val, laneGet k lanes = some val →
    ∃ sv, alGet k.1 shapes = some sv ∧ val = canonLane sv

/-- All drawn connector segments of a successful render, in draw order. -/
def pipeSegs (r : PipeResult) : List Seg :=
  ((pipeOuts r).map EdgeOut.segs).flatten

/-- The chunk capacity in the words of the spec sentence for C8:
    `floor((usable_height + gap) / (min_box_height + gap))`, at least 1,
    where "min_box_height is the minimum box height", i.e. the config's
    `box_h_min` (0.7 inch).  Stated for comparison with `per_col`, which
    the program computes from the default box height `box_h` (0.9 inch). -/
def per_col_claimed : Int := max 1 ((usable_h + V_GAP).fdiv (BOX_H_MIN + V_GAP))

/-- The lane a segment is registered into by `add_seg_registered`:
    vertical (axis `true`) when `x1 = x2`, else horizontal when
    `y1 = y2`, else none. -/
def laneOf (s : Seg) : Option (Bool × Int × Int × Int) :=
  if s.p.1 = s.q.1 then some (true, s.p.1, min s.p.2 s.q.2, max s.p.2 s.q.2)
  else if s.p.2 = s.q.2 then some (false, s.p.2, min s.p.1 s.q.1, max s.p.1 s.q.1)
  else none

/-- Two registered lanes overlap when they have the same axis, the same
    fixed coordinate, and properly overlapping ranges (touching at an
    endpoint does not count, matching `lane_free`). -/
def lanesOverlap (l1 l2 : Bool × Int × Int × Int) : Prop :=
  l1.1 = l2.1 ∧ l1.2.1 = l2.2.1 ∧ ¬(l1.2.2.2 ≤ l2.2.2.1 ∨ l1.2.2.1 ≥ l2.2.2.2)

instance (l1 l2 : Bool × Int × Int × Int) : Decidable (lanesOverlap l1 l2) := by
  unfold lanesOverlap; infer_instance

/-- The lane-overlap property claimed for one render pass (C5 as
    stated): for any two different edges, no registered segment of one
    overlaps a registered segment of the other in the same lane, except
    pairs involving a shared destination-arrival segment. -/
def c5Claim (outs : List EdgeOut) : Prop :=
  outs.Pairwise (fun oi oj =>
    ∀ s1 ∈ oi.segs, ∀ s2 ∈ oj.segs,
      ∀ l1, laneOf s1 = some l1 → ∀ l2, laneOf s2 = some l2 →
        lanesOverlap l1 l2 → oi.arrival = some s1 ∨ oj.arrival = some s2)

instance (outs : List EdgeOut) : Decidable (c5Claim outs) := by
  unfold c5Claim; infer_instance

/-- `u1` is contained in `u2`, entry-wise. -/
def UsedSub (u1 u2 : Used) : Prop := u1.h ⊆ u2.h ∧ u1.v ⊆ u2.v

/-- A segment passes the lane check against the given lane sets. -/
def laneFreeSeg (s : Seg) (used : Used) : Prop :=
  lane_free s.p s.q used false = true

/-- All lanes recorded in the usage sets, tagged with their axis
    (`true` = vertical, matching `laneOf`). -/
def usedLanes (used : Used) : List (Bool × Int × Int × Int) :=
  used.v.map (fun e => (true, e.1, e.2.1, e.2.2)) ++
    used.h.map (fun e => (false, e.1, e.2.1, e.2.2))

/-- The lane-overlap guarantee the code actually provides: a route that
    was produced with lane checks enabled (`ignore_lanes` false, i.e.
    not a shared-destination edge) and not by the last-resort stage
    never overlaps, in a registered lane, any segment drawn for an
    earlier edge — including that edge's shared arrival segment. -/
def c5Amended (outs : List EdgeOut) : Prop :=
  outs.Pairwise (fun oi oj =>
    oj.kind ≠ .fallback → oj.ignored = false →
      ∀ s1 ∈ oi.segs, ∀ s2 ∈ oj.route,
        ∀ l1, laneOf s1 = some l1 → ∀ l2, laneOf s2 = some l2 →
          ¬ lanesOverlap l1 l2)

/-- Reachability along edges from a seed set — the nodes the column
    propagation can ever touch. -/
inductive Reach (edges : List (String × String × String)) (seeds : List String) :
    String → Prop
  | seed {s : String} : s ∈ seeds → Reach edges seeds s
  | step {u v lbl : String} : Reach edges seeds u → (u, v, lbl) ∈ edges →
      Reach edges seeds v

/-- The seed set of the column propagation: the start ids, or the first
    node id when there are none. -/
def seedsOf (nodes : List (String × PNode)) (start_ids : List String) : List String :=
  match nodes with
  | [] => start_ids
  | n0 :: _ => if start_ids.isEmpty then [n0.1] else start_ids

/-- Invariant carried by the column-assignment loop on graphs without
    dangling edge destinations: every node id has a column entry, every
    queued id is a node id with a numeric column, queued ids are
    reachable, every id with a numeric column is reachable, and at least
    one id has a numeric column. -/
def ColInv (ids : List String) (edges : List (String × String × String))
    (seeds : List String) (st : ColState) : Prop :=
  (∀ id ∈ ids, (alGet id st.col).isSome) ∧
  (∀ u ∈ st.q, ∃ n, alGet u st.col = some (some n)) ∧
  (∀ u ∈ st.q, u ∈ ids) ∧
  (∀ u ∈ st.q, Reach edges seeds u) ∧
  (∀ id n, alGet id st.col = some (some n) → Reach edges seeds id) ∧
  (∃ id n, alGet id st.col = some (some n))

/-- The invariant's residue on the finished column dict. -/
def ColFinal (ids : List String) (edges : List (String × String × String))
    (seeds : List String) (colF : List (String × Option Nat)) : Prop :=
  (∀ id ∈ ids, (alGet id colF).isSome) ∧
  (∀ id n, alGet id colF = some (some n) → Reach edges seeds id) ∧
  (∃ id n, alGet id colF = some (some n))

/-- A concrete font-metric instance used for witnesses and
    counterexamples (any fixed metric works; this one gives every
    character width 7, ascent 10 and descent 3). -/
def fmTest : FontM := ⟨fun s => 7 * (s.length : Int), 10, 3⟩

/-- The spec's decision scenario: `[d]` with `Path "Yes" -> [a]` and
    `Path "No" -> [b]`. -/
def tScenario : String :=
  "Start: [s] S\nLeads to: [d]\nDecision: [d] Q\nPath \"Yes\" -> [a]\nPath \"No\" -> [b]\nAction: [a]\nAction: [b]\n"

/-- A decision whose two branches share one destination: both writes of
    `plan_decision_routes` land on the key `(d, v)`. -/
def tC1 : String :=
  "Decision: [d] Q\nPath \"Yes\" -> [v]\nPath \"No\" -> [v]\nAction: [v]\n"

/-- A start node `[s2]` that is the destination of a right-preference
    decision branch. -/
def tC3 : String :=
  "Start: [s1] A\nLeads to: [d]\nDecision: [d] Q\nPath \"Yes\" -> [s2]\nPath \"No\" -> [b]\nStart: [s2] B\nAction: [b]\nDetails: xx\n"

/-- A dangling edge destination: `[ghost]` is never declared. -/
def tC4 : String := "Start: [s] Go\nLeads to: [ghost]\n"

/-- Two edges (`s -> x` and the Yes branch of `d`) converging on `[x]`
    from the left: both routes ignore lane checks and their vertical
    approach segments overlap in the shared lane `x = 3657600`. -/
def tC5 : String :=
  "Start: [s] Begin\nLeads to: [d]\nLeads to: [x]\nDecision: [d] Choice?\nPath \"Yes\" -> [x]\nPath \"No\" -> [b]\nAction: [b]\nDetails: Handle\nAction: [x]\nDetails: Work\n"

/-- An action node re-declared as `Start` with inline text: the inline
    text becomes the title of a node whose stored kind is `action`. -/
def tC10 : String := "Action: [v]\nStart: [v] Hello\n"

/-- A well-formed schema with an unreachable info node `[i]`. -/
def tC4w : String :=
  "Start: [s] Go\nLeads to: [a]\nAction: [a]\nDetails: x\nInformation: [i] note\n"

/-! ## Association-list lemmas -/

theorem alGet_append_some {β : Type} (k : String) {l l' : List (String × β)} {v : β}
    (h : alGet k l = some v) : alGet k (l ++ l') = some v := by
  induction l with
  | nil => simp [alGet] at h
  | cons p rest ih =>
      simp only [alGet, List.cons_append] at h ⊢
      split at h
      · simp [*]
      · simp only [*, if_neg]
        exact ih h

theorem alGet_modify {β : Type} (k id : String) (f : β → β) (l : List (String × β)) :
    alGet id (alModify k f l) = if id = k then (alGet k l).map f else alGet id l := by
  induction l with
  | nil => by_cases h : id = k <;> simp [alGet, alModify, h]
  | cons p rest ih =>
      simp only [alModify]
      by_cases hk : k = p.1
      · rw [if_pos hk]
        by_cases hi : id = p.1
        · have hik : id = k := hi.trans hk.symm
          simp [alGet, hi, hik, hk]
        · have hik : ¬ id = k := fun h => hi (h.trans hk)
          simp [alGet, hi, hik]
      · rw [if_neg hk]
        by_cases hi : id = p.1
        · have hik : ¬ p.1 = k := fun h => hk h.symm
          simp [alGet, hi, hik]
        · simp [alGet, hi, hk, ih]

theorem alGet_mapVal {β γ : Type} (id : String) (f : β → γ) (l : List (String × β)) :
    alGet id (l.map (fun p => (p.1, f p.2))) = (alGet id l).map f := by
  induction l with
  | nil => simp [alGet]
  | cons p rest ih => by_cases h : id = p.1 <;> simp [alGet, h, ih]

theorem alGet_colSet_self (k : String) (v : Option Nat) (l : List (String × Option Nat)) :
    alGet k (colSet k v l) = some v := by
  induction l with
  | nil => simp [alGet, colSet]
  | cons p rest ih => by_cases h : k = p.1 <;> simp [alGet, colSet, h, ih]

theorem alGet_colSet_ne (k id : String) (v : Option Nat) (l : List (String × Option Nat))
    (h : id ≠ k) : alGet id (colSet k v l) = alGet id l := by
  induction l with
  | nil => simp [alGet, colSet, h]
  | cons p rest ih =>
      by_cases hk : k = p.1
      · subst hk
        simp [alGet, colSet, h]
      · by_cases hip : id = p.1 <;> simp [alGet, colSet, hk, hip, ih]

theorem rpGet_insert_self (k : String × String) (v : String)
    (m : List ((String × String) × String)) : rpGet k (rpInsert k v m) = some v := by
  induction m with
  | nil => simp [rpGet, rpInsert]
  | cons p rest ih => by_cases h : k = p.1 <;> simp [rpGet, rpInsert, h, ih]

theorem rpGet_insert_ne (k k' : String × String) (v : String)
    (m : List ((String × String) × String)) (h : k' ≠ k) :
    rpGet k' (rpInsert k v m) = rpGet k' m := by
  induction m with
  | nil => simp [rpGet, rpInsert, h]
  | cons p rest ih =>
      by_cases hk : k = p.1
      · subst hk
        simp [rpGet, rpInsert, h]
      · by_cases hk' : k' = p.1 <;> simp [rpGet, rpInsert, hk, hk', ih]

/-! ## C8: the serpentine chunk capacity -/

/-- Every chunk produced by the serpentine split has at most `n` nodes
    (for the positive capacities the program uses). -/
theorem chunksOfB_length_le {α : Type} (n : Nat) (hn : 1 ≤ n) :
    ∀ (b : Nat) (l : List α), l.length ≤ b → ∀ c ∈ chunksOfB n b l, c.length ≤ n := by
  intro b
  induction b with
  | zero =>
      intro l hl c hc
      cases l with
      | nil => simp [chunksOfB] at hc
      | cons a t => simp at hl
  | succ b ih =>
      intro l hl c hc
      cases l with
      | nil => simp [chunksOfB] at hc
      | cons a t =>
          rw [chunksOfB] at hc
          rcases List.mem_cons.mp hc with h | h
          · subst h
            simp only [List.length_cons, List.length_take]
            omega
          · refine ih (t.drop (n - 1)) ?_ c h
            simp only [List.length_cons] at hl
            simp only [List.length_drop]
            omega

theorem chunksOf_length_le {α : Type} (n : Nat) (hn : 1 ≤ n) :
    ∀ (l : List α), ∀ c ∈ chunksOf n l, c.length ≤ n := by
  intro l
  exact chunksOfB_length_le n hn l.length l (le_refl _)

/-- **C8 (counterexample).**  The capacity the program uses is computed
    from the default box height `box_h = 0.9"` and equals 5; the spec's
    formula with the minimum box height `box_h_min = 0.7"` gives 6.  A
    column of six nodes is therefore split `5 + 1` rather than kept
    whole. -/
theorem per_col_cex :
    per_col = 5 ∧ per_col_claimed = 6 ∧ per_col ≠ per_col_claimed ∧
      chunksOf per_col.toNat ["n1", "n2", "n3", "n4", "n5", "n6"] =
        [["n1", "n2", "n3", "n4", "n5"], ["n6"]] := by
  exact ⟨by decide, by decide, by decide, by decide⟩

/-- **C8 (amended).**  The chunk capacity used when splitting a tall
    column is `per_col = max 1 ((usable_height + v_gap) // (box_h + v_gap))`
    — `box_h` being the default box height, not the minimum box height —
    which evaluates to the constant 5, and every chunk the split
    produces contains at most `per_col` nodes. -/
theorem per_col_spec_amended :
    per_col = max 1 ((usable_h + V_GAP).fdiv (BOX_H + V_GAP)) ∧
    per_col = 5 ∧
    (∀ (l : List (String × PNode)), ∀ c ∈ chunksOf per_col.toNat l,
      c.length ≤ per_col.toNat) := by
  refine ⟨rfl, by decide, ?_⟩
  intro l c hc
  exact chunksOf_length_le per_col.toNat (by decide) l c hc

/-- Witness for the amended C8 theorem at a concrete column. -/
theorem per_col_spec_amended_witness :
    ∀ c ∈ chunksOf per_col.toNat
      [("a", ({ id := "a", kind := "action", title := "", details_lines := [] } : PNode))],
      c.length ≤ per_col.toNat :=
  per_col_spec_amended.2.2 _

/-! ## C6: the router always produces a connector -/

/-- **C6.**  For every pair of anchor points, obstacle list, exclusion
    set, lane state and lane-ignore flag, `route_orthogonal_detour`
    produces a non-empty segment list whose final segment ends at the
    destination point with an arrowhead (the stage order — elbow 1,
    elbow 2, horizontal gutters, vertical gutters in ascending
    coordinate order — is the structure of the definition itself); and
    whenever the last-resort stage is reached, the drawn connector is
    exactly the direct segment from source to destination, regardless
    of clearance.  The function is total: no input raises an error. -/
theorem route_always_arrives (p1 p2 : Pt) (rects_all exclude_rects : List Rct)
    (used : Used) (ig : Bool) :
    ((route_orthogonal_detour p1 p2 rects_all exclude_rects used ig).segs.getLast?).map Seg.q
        = some p2 ∧
    ((route_orthogonal_detour p1 p2 rects_all exclude_rects used ig).segs.getLast?).map Seg.arrow
        = some true ∧
    ((route_orthogonal_detour p1 p2 rects_all exclude_rects used ig).kind ≠ .fallback ∨
      (route_orthogonal_detour p1 p2 rects_all exclude_rects used ig).segs =
        [⟨p1, p2, true⟩]) := by
  simp only [route_orthogonal_detour]
  split
  · exact ⟨rfl, rfl, Or.inl (by simp [accept2])⟩
  · split
    · exact ⟨rfl, rfl, Or.inl (by simp [accept2])⟩
    · split
      · exact ⟨rfl, rfl, Or.inl (by simp [accept3])⟩
      · split
        · exact ⟨rfl, rfl, Or.inl (by simp [accept3])⟩
        · exact ⟨rfl, rfl, Or.inr rfl⟩

/-- Witness: a source and destination both buried inside one large
    obstacle leave no clear candidate, and the router draws the direct
    diagonal segment. -/
theorem route_always_arrives_witness :
    (route_orthogonal_detour (0, 0) (914400, 914400)
        [⟨-9144000, -9144000, 18288000, 18288000⟩] [] ⟨[], []⟩ false).kind =
      RouteKind.fallback ∧
    (route_orthogonal_detour (0, 0) (914400, 914400)
        [⟨-9144000, -9144000, 18288000, 18288000⟩] [] ⟨[], []⟩ false).segs =
      [⟨(0, 0), (914400, 914400), true⟩] :=
  ⟨by decide,
   ((route_always_arrives (0, 0) (914400, 914400)
      [⟨-9144000, -9144000, 18288000, 18288000⟩] [] ⟨[], []⟩ false).2.2).resolve_left
     (fun hne => hne (by decide))⟩

/-! ## C9: the pipeline is deterministic -/

/-- **C9.**  Running the layout pipeline twice on the same schema text
    with the same (declaration-ordered) edges yields identical results:
    the placed box rectangles and the drawn segments of both runs agree
    (the embedding threads all state — lane sets, shared-lane cache,
    cursors — explicitly, so the result is a function of the schema
    text, the font metric and the loop fuel alone). -/
theorem pipeline_deterministic (fm : FontM) (fuel : Nat) (t1 t2 : String)
    (h : t1 = t2) :
    pipeShapes (pipeline fm fuel t1) = pipeShapes (pipeline fm fuel t2) ∧
    pipeSegs (pipeline fm fuel t1) = pipeSegs (pipeline fm fuel t2) := by
  rw [h]
  exact ⟨rfl, rfl⟩

/-- Witness: the two runs of the pipeline on the decision scenario
    schema coincide. -/
theorem pipeline_deterministic_witness :
    pipeShapes (pipeline fmTest 100 tScenario) = pipeShapes (pipeline fmTest 100 tScenario) ∧
    pipeSegs (pipeline fmTest 100 tScenario) = pipeSegs (pipeline fmTest 100 tScenario) :=
  pipeline_deterministic fmTest 100 tScenario tScenario rfl

/-! ## C2: the column-propagation rule -/

/-- **C2.**  One propagation along an edge `(u, v)` during column
    assignment stores for `v` exactly the maximum of its previous column
    and the candidate column, where the candidate is `column(u) + 1`
    when `u` is a decision node whose routing preference for `(u, v)` is
    `right` and `column(u)` otherwise; and on the spec's scenario — a
    decision `[d]` with `Path "Yes" -> [a]` and `Path "No" -> [b]` —
    `a`'s column is `d`'s column + 1 and `b`'s column equals `d`'s
    column. -/
theorem column_propagation_max
    (nodes : List (String × PNode)) (rp : List ((String × String) × String))
    (u v : String) (cu : Nat) (st : ColState) (nd : PNode) (old : Option Nat)
    (hnd : alGet u nodes = some nd) (hold : alGet v st.col = some old) :
    (∃ st', relaxEdge nodes rp u cu st v = .ok st' ∧
      alGet v st'.col = some (some (Option.elim old
        (if nd.kind = "decision" ∧ rpGet (u, v) rp = some "right" then cu + 1 else cu)
        (fun c => max c
          (if nd.kind = "decision" ∧ rpGet (u, v) rp = some "right" then cu + 1 else cu))))) ∧
    (alGet "d" (colsOf (assign_columns (parse_schema_details_only tScenario).1
        (parse_schema_details_only tScenario).2.1
        (parse_schema_details_only tScenario).2.2
        (plan_decision_routes (parse_schema_details_only tScenario).1
          (parse_schema_details_only tScenario).2.1) 100)) = some 0 ∧
     alGet "a" (colsOf (assign_columns (parse_schema_details_only tScenario).1
        (parse_schema_details_only tScenario).2.1
        (parse_schema_details_only tScenario).2.2
        (plan_decision_routes (parse_schema_details_only tScenario).1
          (parse_schema_details_only tScenario).2.1) 100)) = some 1 ∧
     alGet "b" (colsOf (assign_columns (parse_schema_details_only tScenario).1
        (parse_schema_details_only tScenario).2.1
        (parse_schema_details_only tScenario).2.2
        (plan_decision_routes (parse_schema_details_only tScenario).1
          (parse_schema_details_only tScenario).2.1) 100)) = some 0) := by
  constructor
  · simp only [relaxEdge, hnd, hold]
    refine ⟨_, rfl, ?_⟩
    cases old with
      | none => simp [candCol, relaxVal, alGet_colSet_self, Option.elim]
      | some c =>
          by_cases hdv : (if nd.kind = "decision" ∧ rpGet (u, v) rp = some "right"
              then cu + 1 else cu) > c
          · simp_all [candCol, relaxVal, alGet_colSet_self, Option.elim,
              Nat.max_eq_right (Nat.le_of_lt hdv), Bool.and_eq_true, decide_eq_true_iff]
          · simp_all [candCol, relaxVal, alGet_colSet_self, Option.elim,
              Nat.max_eq_left (Nat.le_of_not_lt hdv), Bool.and_eq_true, decide_eq_true_iff]
  · exact ⟨by decide, by decide, by decide⟩

/-- Witness: a right-preference decision edge relaxes a destination
    whose current column is 3 to `max 3 (5 + 1) = 6`. -/
theorem column_propagation_max_witness :
    ∃ st', relaxEdge [("u", ⟨"u", "decision", "", []⟩)] [(("u", "v"), "right")] "u" 5
        ⟨[("v", some 3)], [], []⟩ "v" = .ok st' ∧
      alGet "v" st'.col = some (some 6) := by
  have h := (column_propagation_max [("u", ⟨"u", "decision", "", []⟩)]
    [(("u", "v"), "right")] "u" "v" 5 ⟨[("v", some 3)], [], []⟩
    ⟨"u", "decision", "", []⟩ (some 3) rfl rfl).1
  simpa using h

/-! ## C1: the decision router's right/down assignment -/

theorem insOut_perm (a : String × String) (l : List (String × String)) :
    (insOut a l).Perm (a :: l) := by
  induction l with
  | nil => simp [insOut]
  | cons b t ih =>
      simp only [insOut]
      split
      · exact List.Perm.refl _
      · exact (ih.cons b).trans (List.Perm.swap a b t)

theorem sortOuts_perm (l : List (String × String)) : (sortOuts l).Perm l := by
  induction l with
  | nil => simp [sortOuts]
  | cons a t ih => exact (insOut_perm a (sortOuts t)).trans (ih.cons a)

theorem planNode_other (edges : List (String × String × String))
    (rp : List ((String × String) × String)) (entry : String × PNode)
    (d w : String) (h : entry.1 ≠ d) :
    rpGet (d, w) (planNode edges rp entry) = rpGet (d, w) rp := by
  unfold planNode
  have hne : ∀ x : String, ((d, w) : String × String) ≠ (entry.1, x) :=
    fun x hx => h ((congrArg Prod.fst hx).symm)
  split
  · rfl
  · rcases hs : sortOuts (outBySrc edges entry.1) with _ | ⟨o, _ | ⟨o1, tail⟩⟩
    · simp only [hs]
    · simp only [hs]
      rw [rpGet_insert_ne _ _ _ _ (hne _)]
    · simp only [hs]
      rw [rpGet_insert_ne _ _ _ _ (hne _), rpGet_insert_ne _ _ _ _ (hne _)]

theorem foldl_planNode_other (edges : List (String × String × String))
    (l : List (String × PNode)) (rp : List ((String × String) × String))
    (d w : String) (h : d ∉ l.map Prod.fst) :
    rpGet (d, w) (l.foldl (planNode edges) rp) = rpGet (d, w) rp := by
  induction l generalizing rp with
  | nil => rfl
  | cons p t ih =>
      simp only [List.map_cons, List.mem_cons] at h
      push_neg at h
      rw [List.foldl_cons, ih _ h.2, planNode_other _ _ _ _ _ (fun hp => h.1 hp.symm)]

theorem countP_congrB {α : Type} (p q : α → Bool) (l : List α)
    (h : ∀ a ∈ l, p a = q a) : l.countP p = l.countP q := by
  induction l with
  | nil => rfl
  | cons a t ih =>
      rw [List.countP_cons, List.countP_cons, h a (List.mem_cons_self a t),
        ih (fun b hb => h b (List.mem_cons_of_mem a hb))]

theorem countP_key_eq {β : Type} (l : List (String × β)) (x : String)
    (hn : (l.map Prod.fst).Nodup) (hx : x ∈ l.map Prod.fst) :
    l.countP (fun p => decide (p.1 = x)) = 1 := by
  induction l with
  | nil => simp at hx
  | cons p t ih =>
      simp only [List.map_cons, List.nodup_cons] at hn
      rw [List.countP_cons]
      rcases List.mem_cons.mp hx with h | h
      · have hz : t.countP (fun q => decide (q.1 = x)) = 0 := by
          rw [List.countP_eq_zero]
          intro q hq hqx
          exact hn.1 (h ▸ (of_decide_eq_true hqx) ▸ List.mem_map_of_mem Prod.fst hq)
        simp [hz, h.symm]
      · have hpx : ¬ p.1 = x := fun hh => hn.1 (hh ▸ h)
        simp [ih hn.2 h, hpx]

/-- **C1 (amended).**  For a decision node whose outgoing edges have
    pairwise-distinct destinations: with two or more outgoing edges,
    after `plan_decision_routes` runs exactly one outgoing edge has
    preference `right` and exactly one has `down` — namely the first and
    second edges after the Yes-first, then lexicographic stable sort —
    and with exactly one outgoing edge, that edge gets `down` and no
    edge of the node gets `right`.  (Without distinct destinations the
    two writes share the dict key `(decision_id, dest_id)` and the
    second overwrites the first.) -/
theorem plan_decision_routes_spec
    (nodes : List (String × PNode)) (edges : List (String × String × String))
    (d : String) (nd : PNode)
    (hmem : (d, nd) ∈ nodes) (hkind : nd.kind = "decision")
    (hnodup : (nodes.map Prod.fst).Nodup)
    (hdest : ((outBySrc edges d).map Prod.fst).Nodup) :
    (∀ o, outBySrc edges d = [o] →
      rpGet (d, o.1) (plan_decision_routes nodes edges) = some "down" ∧
      (outBySrc edges d).countP
        (fun o' => decide (rpGet (d, o'.1) (plan_decision_routes nodes edges) = some "right"))
        = 0) ∧
    (∀ o0 o1 rest, sortOuts (outBySrc edges d) = o0 :: o1 :: rest →
      rpGet (d, o0.1) (plan_decision_routes nodes edges) = some "right" ∧
      rpGet (d, o1.1) (plan_decision_routes nodes edges) = some "down" ∧
      (outBySrc edges d).countP
        (fun o' => decide (rpGet (d, o'.1) (plan_decision_routes nodes edges) = some "right"))
        = 1 ∧
      (outBySrc edges d).countP
        (fun o' => decide (rpGet (d, o'.1) (plan_decision_routes nodes edges) = some "down"))
        = 1) := by
  obtain ⟨l1, l2, hsplit⟩ := List.append_of_mem hmem
  have hmap : nodes.map Prod.fst = l1.map Prod.fst ++ d :: l2.map Prod.fst := by
    simp [hsplit]
  rw [hmap] at hnodup
  have hd12 : d ∉ l1.map Prod.fst ++ l2.map Prod.fst :=
    (List.nodup_cons.mp (List.nodup_middle.mp hnodup)).1
  have hd1 : d ∉ l1.map Prod.fst := fun h => hd12 (List.mem_append_left _ h)
  have hd2 : d ∉ l2.map Prod.fst := fun h => hd12 (List.mem_append_right _ h)
  have hfold : ∀ w, rpGet (d, w) (plan_decision_routes nodes edges) =
      rpGet (d, w) (planNode edges (l1.foldl (planNode edges) []) (d, nd)) := by
    intro w
    unfold plan_decision_routes
    rw [hsplit, List.foldl_append, List.foldl_cons, foldl_planNode_other _ _ _ _ _ hd2]
  have hM : ∀ w, rpGet (d, w) (l1.foldl (planNode edges) []) = none := by
    intro w
    rw [foldl_planNode_other _ _ _ _ _ hd1]
    rfl
  constructor
  · intro o hout
    have hsort : sortOuts (outBySrc edges d) = [o] := by rw [hout]; rfl
    have hlook : ∀ w, rpGet (d, w) (plan_decision_routes nodes edges) =
        rpGet (d, w) (rpInsert (d, o.1) "down" (l1.foldl (planNode edges) [])) := by
      intro w
      rw [hfold w]
      unfold planNode
      simp only [hkind, hsort]
      rfl
    constructor
    · rw [hlook, rpGet_insert_self]
    · simp only [hout, List.countP_cons, List.countP_nil]
      rw [hlook, rpGet_insert_self]
      decide
  · intro o0 o1 rest hsort
    have hsnodup : ((sortOuts (outBySrc edges d)).map Prod.fst).Nodup :=
      (((sortOuts_perm (outBySrc edges d)).map Prod.fst).nodup_iff).mpr hdest
    rw [hsort] at hsnodup
    simp only [List.map_cons, List.nodup_cons, List.mem_cons] at hsnodup
    have h01 : o0.1 ≠ o1.1 := fun h => hsnodup.1 (Or.inl h)
    have hlook : ∀ w, rpGet (d, w) (plan_decision_routes nodes edges) =
        rpGet (d, w) (rpInsert (d, o1.1) "down"
          (rpInsert (d, o0.1) "right" (l1.foldl (planNode edges) []))) := by
      intro w
      rw [hfold w]
      unfold planNode
      simp only [hkind, hsort]
      rfl
    have hr : rpGet (d, o0.1) (plan_decision_routes nodes edges) = some "right" := by
      rw [hlook, rpGet_insert_ne _ _ _ _ (fun h => h01 (congrArg Prod.snd h)),
        rpGet_insert_self]
    have hdn : rpGet (d, o1.1) (plan_decision_routes nodes edges) = some "down" := by
      rw [hlook, rpGet_insert_self]
    have hother : ∀ w, w ≠ o0.1 → w ≠ o1.1 →
        rpGet (d, w) (plan_decision_routes nodes edges) = none := by
      intro w hw0 hw1
      rw [hlook, rpGet_insert_ne _ _ _ _ (fun h => hw1 (congrArg Prod.snd h)),
        rpGet_insert_ne _ _ _ _ (fun h => hw0 (congrArg Prod.snd h)), hM]
    have ho0mem : o0 ∈ outBySrc edges d :=
      (sortOuts_perm (outBySrc edges d)).subset (hsort ▸ List.mem_cons_self _ _)
    have ho1mem : o1 ∈ outBySrc edges d :=
      (sortOuts_perm (outBySrc edges d)).subset
        (hsort ▸ List.mem_cons_of_mem _ (List.mem_cons_self _ _))
    refine ⟨hr, hdn, ?_, ?_⟩
    · rw [countP_congrB _ (fun o' => decide (o'.1 = o0.1)) _ ?_]
      · exact countP_key_eq _ _ hdest (List.mem_map_of_mem Prod.fst ho0mem)
      · intro o' _
        rw [decide_eq_decide]
        constructor
        · intro hro
          by_cases h0 : o'.1 = o0.1
          · exact h0
          · by_cases h1 : o'.1 = o1.1
            · rw [h1, hdn] at hro
              exact absurd (Option.some.inj hro) (by decide)
            · rw [hother o'.1 h0 h1] at hro
              exact absurd hro (by simp)
        · intro h0
          rw [h0]
          exact hr
    · rw [countP_congrB _ (fun o' => decide (o'.1 = o1.1)) _ ?_]
      · exact countP_key_eq _ _ hdest (List.mem_map_of_mem Prod.fst ho1mem)
      · intro o' _
        rw [decide_eq_decide]
        constructor
        · intro hro
          by_cases h1 : o'.1 = o1.1
          · exact h1
          · by_cases h0 : o'.1 = o0.1
            · rw [h0, hr] at hro
              exact absurd (Option.some.inj hro) (by decide)
            · rw [hother o'.1 h0 h1] at hro
              exact absurd hro (by simp)
        · intro h1
          rw [h1]
          exact hdn

/-- **C1 (counterexample).**  A decision with two edges to the same
    destination (`Path "Yes" -> [v]` and `Path "No" -> [v]`): both
    preference writes land on the key `(d, v)`, the `down` write
    overwrites the `right` write, and no outgoing edge has preference
    `right` even though the node has two outgoing edges. -/
theorem plan_decision_routes_cex :
    (outBySrc (parse_schema_details_only tC1).2.1 "d").length = 2 ∧
    (outBySrc (parse_schema_details_only tC1).2.1 "d").countP
      (fun o => decide (rpGet ("d", o.1)
        (plan_decision_routes (parse_schema_details_only tC1).1
          (parse_schema_details_only tC1).2.1) = some "right")) = 0 ∧
    (outBySrc (parse_schema_details_only tC1).2.1 "d").countP
      (fun o => decide (rpGet ("d", o.1)
        (plan_decision_routes (parse_schema_details_only tC1).1
          (parse_schema_details_only tC1).2.1) = some "down")) = 2 := by
  refine ⟨by decide, by decide, by decide⟩

/-- Witness: the spec scenario's decision `[d]` (branches Yes to `a`,
    No to `b`, distinct destinations) gets exactly one `right` edge (to
    `a`) and one `down` edge (to `b`). -/
theorem plan_decision_routes_spec_witness :
    rpGet ("d", "a") (plan_decision_routes (parse_schema_details_only tScenario).1
      (parse_schema_details_only tScenario).2.1) = some "right" ∧
    rpGet ("d", "b") (plan_decision_routes (parse_schema_details_only tScenario).1
      (parse_schema_details_only tScenario).2.1) = some "down" ∧
    (outBySrc (parse_schema_details_only tScenario).2.1 "d").countP
      (fun o' => decide (rpGet ("d", o'.1)
        (plan_decision_routes (parse_schema_details_only tScenario).1
          (parse_schema_details_only tScenario).2.1) = some "right")) = 1 ∧
    (outBySrc (parse_schema_details_only tScenario).2.1 "d").countP
      (fun o' => decide (rpGet ("d", o'.1)
        (plan_decision_routes (parse_schema_details_only tScenario).1
          (parse_schema_details_only tScenario).2.1) = some "down")) = 1 :=
  (plan_decision_routes_spec (parse_schema_details_only tScenario).1
    (parse_schema_details_only tScenario).2.1 "d" ⟨"d", "decision", "Q", []⟩
    (by decide) (by decide) (by decide) (by decide)).2
    ("a", "Yes") ("b", "No") [] (by decide)

/-! ## C10: inline titles on node-declaration lines -/

theorem alGet_append_none {β : Type} (k : String) {l : List (String × β)}
    (l' : List (String × β)) (h : alGet k l = none) :
    alGet k (l ++ l') = alGet k l' := by
  induction l with
  | nil => rfl
  | cons p rest ih =>
      simp only [alGet, List.cons_append] at h ⊢
      split at h
      · exact absurd h (by simp)
      · simp only [*, if_neg]
        exact ih h

theorem isWS_toLower_self {c : Char} (h : isWS c = true) : c.toLower = c := by
  simp only [isWS, Bool.or_eq_true, decide_eq_true_eq] at h
  rcases h with ((((h | h) | h) | h) | h) | h <;> subst h <;> decide

theorem matchCI_cons {p : Char} {ps : List Char} {l r : List Char}
    (h : matchCI (p :: ps) l = some r) :
    ∃ c cs, l = c :: cs ∧ p.toLower = c.toLower := by
  cases l with
  | nil => simp [matchCI] at h
  | cons c cs =>
      simp only [matchCI] at h
      split at h
      · exact ⟨c, cs, rfl, by assumption⟩
      · exact absurd h (by simp)

theorem head_not_ws {p c : Char} (hp : isWS p.toLower = false)
    (heq : p.toLower = c.toLower) : isWS c = false := by
  by_contra hc
  rw [Bool.not_eq_false] at hc
  have hcl : c.toLower = c := isWS_toLower_self hc
  rw [hcl] at heq
  rw [heq] at hp
  rw [hc] at hp
  exact absurd hp (by simp)

theorem stripL_cons_not_ws {c : Char} {cs : List Char} (h : isWS c = false) :
    (stripL (c :: cs)).isEmpty = false := by
  unfold stripL
  rw [List.dropWhile_cons, if_neg (by simp [h])]
  have hmem : c ∈ (c :: cs).reverse := by simp
  have hne : (c :: cs).reverse.dropWhile isWS ≠ [] := by
    intro hnil
    have hall := List.dropWhile_eq_nil_iff.mp hnil c hmem
    simp [h] at hall
  cases hcase : ((c :: cs).reverse.dropWhile isWS).reverse with
  | nil => exact absurd (List.reverse_eq_nil_iff.mp hcase) hne
  | cons a t => rfl

theorem matchNode_not_blank {l : List Char} {r : String × String × String}
    (hm : matchNode l = some r) : (stripL l).isEmpty = false := by
  have hk : ∃ kr, matchKind nodeKinds l = some kr := by
    unfold matchNode at hm
    split at hm
    · exact absurd hm (by simp)
    · exact ⟨_, by assumption⟩
  obtain ⟨⟨kw, rest⟩, hmk⟩ := hk
  have hhead : ∃ c cs, l = c :: cs ∧ isWS c = false := by
    simp only [nodeKinds, matchKind] at hmk
    split at hmk
    · obtain ⟨c, cs, hl, he⟩ := matchCI_cons (by assumption)
      exact ⟨c, cs, hl, head_not_ws (by decide) he⟩
    · split at hmk
      · obtain ⟨c, cs, hl, he⟩ := matchCI_cons (by assumption)
        exact ⟨c, cs, hl, head_not_ws (by decide) he⟩
      · split at hmk
        · obtain ⟨c, cs, hl, he⟩ := matchCI_cons (by assumption)
          exact ⟨c, cs, hl, head_not_ws (by decide) he⟩
        · split at hmk
          · obtain ⟨c, cs, hl, he⟩ := matchCI_cons (by assumption)
            exact ⟨c, cs, hl, head_not_ws (by decide) he⟩
          · split at hmk
            · obtain ⟨c, cs, hl, he⟩ := matchCI_cons (by assumption)
              exact ⟨c, cs, hl, head_not_ws (by decide) he⟩
            · split at hmk
              · obtain ⟨c, cs, hl, he⟩ := matchCI_cons (by assumption)
                exact ⟨c, cs, hl, head_not_ws (by decide) he⟩
              · exact absurd hmk (by simp)
  obtain ⟨c, cs, hl, hc⟩ := hhead
  rw [hl]
  exact stripL_cons_not_ws hc

/-- **C10 (amended).**  On a node-declaration line, the inline text after
    the id sets the node's title only when the declared kind is start,
    end or decision: an action or info declaration silently discards the
    inline text (existing nodes keep their titles, a freshly created
    node gets an empty title).  A node's title changes only on a
    `Title:` line addressed to the current node, or on a declaration
    line for that id whose declared kind is start, end or decision with
    non-empty inline text — so an action or info node's title can also
    be set by a later re-declaration of its id under one of those three
    kinds, not only by a `Title:` line. -/
theorem inline_title_only_sed
    (st : ParseState) (line : String) :
    (∀ kind nidR restR,
      matchNode line.data = some (kind, nidR, restR) →
      (normKind kind = "action" ∨ normKind kind = "info") →
      (∀ id nd, alGet id st.nodes = some nd →
        ∃ nd', alGet id (parseLine st line).nodes = some nd' ∧ nd'.title = nd.title) ∧
      (alGet (pyStrip nidR) st.nodes = none →
        alGet (pyStrip nidR) (parseLine st line).nodes =
          some ⟨pyStrip nidR, normKind kind, "", []⟩)) ∧
    (∀ id nd nd',
      alGet id st.nodes = some nd →
      alGet id (parseLine st line).nodes = some nd' →
      nd'.title ≠ nd.title →
      ((matchTitleLine line.data).isSome ∧ st.current_id = some id) ∨
      (∃ kind nidR restR, matchNode line.data = some (kind, nidR, restR) ∧
        pyStrip nidR = id ∧
        (normKind kind = "start" ∨ normKind kind = "end" ∨ normKind kind = "decision") ∧
        pyStrip restR ≠ "")) := by
  constructor
  · intro kind nidR restR hm hk
    have hnb := matchNode_not_blank hm
    have hsed : ((normKind kind = "start" || normKind kind = "end" ||
        normKind kind = "decision") && decide (pyStrip restR ≠ "")) = false := by
      rcases hk with h | h <;> simp [h]
    constructor
    · intro id nd hid
      simp only [parseLine, hnb, Bool.false_eq_true, if_false, hm, hsed]
      split
      · exact ⟨nd, hid, rfl⟩
      · exact ⟨nd, alGet_append_some _ hid, rfl⟩
    · intro hnone
      simp only [parseLine, hnb, Bool.false_eq_true, if_false, hm, hsed]
      rw [if_neg (by simp [hnone]), alGet_append_none _ _ hnone]
      simp [alGet]
  · intro id nd nd' hold hnew hne
    by_cases hblank : (stripL line.data).isEmpty = true
    · have hpl : parseLine st line = st := by
        unfold parseLine
        rw [if_pos hblank]
      rw [hpl, hold] at hnew
      exact absurd (by rw [Option.some.inj hnew]) hne
    · rw [Bool.not_eq_true] at hblank
      cases hm : matchNode line.data with
      | some kr =>
          obtain ⟨kind, nidR, restR⟩ := kr
          right
          simp only [parseLine, hblank, Bool.false_eq_true, if_false, hm] at hnew
          split at hnew
          · rename_i hcond
            rw [alGet_modify] at hnew
            by_cases hidn : id = pyStrip nidR
            · have hc2 := (Bool.and_eq_true _ _).mp hcond
              refine ⟨kind, nidR, restR, rfl, hidn.symm, ?_, ?_⟩
              · simpa [Bool.or_eq_true, decide_eq_true_eq, or_assoc] using hc2.1
              · simpa using hc2.2
            · rw [if_neg hidn] at hnew
              split at hnew
              · rw [hold] at hnew
                exact absurd (by rw [Option.some.inj hnew]) hne
              · rw [alGet_append_some _ hold] at hnew
                exact absurd (by rw [Option.some.inj hnew]) hne
          · split at hnew
            · rw [hold] at hnew
              exact absurd (by rw [Option.some.inj hnew]) hne
            · rw [alGet_append_some _ hold] at hnew
              exact absurd (by rw [Option.some.inj hnew]) hne
      | none =>
          simp only [parseLine, hblank, Bool.false_eq_true, if_false, hm] at hnew
          split at hnew
          · rename_i txt cur hd hc
            try dsimp only at hnew
            rw [alGet_modify] at hnew
            by_cases hidc : id = cur
            · rw [if_pos hidc, ← hidc, hold] at hnew
              simp only [Option.map_some'] at hnew
              have hnd : nd' = { nd with details_lines := nd.details_lines ++ [txt] } :=
                (Option.some.inj hnew).symm
              exact absurd (by rw [hnd]) hne
            · rw [if_neg hidc, hold] at hnew
              exact absurd (by rw [Option.some.inj hnew]) hne
          · split at hnew
            · rename_i txt cur ht hc
              by_cases hidc : id = cur
              · left
                rw [ht]
                exact ⟨rfl, hc ▸ hidc ▸ rfl⟩
              · try dsimp only at hnew
                rw [alGet_modify, if_neg hidc, hold] at hnew
                exact absurd (by rw [Option.some.inj hnew]) hne
            · split at hnew
              · try dsimp only at hnew
                rw [hold] at hnew
                exact absurd (by rw [Option.some.inj hnew]) hne
              · split at hnew
                · rename_i lbl nid cur ck hp hc hck
                  by_cases hckd : ck = "decision"
                  · rw [if_pos hckd] at hnew
                    try dsimp only at hnew
                    rw [hold] at hnew
                    exact absurd (by rw [Option.some.inj hnew]) hne
                  · rw [if_neg hckd] at hnew
                    try dsimp only at hnew
                    rw [hold] at hnew
                    exact absurd (by rw [Option.some.inj hnew]) hne
                · rw [hold] at hnew
                  exact absurd (by rw [Option.some.inj hnew]) hne

/-- **C10 (counterexample).**  `Action: [v]` then `Start: [v] Hello`:
    the node `v` keeps kind `action` (the re-declaration does not
    overwrite the stored kind) yet its title becomes `Hello` from the
    inline text, although no line of the text matches the `Title:`
    pattern. -/
theorem inline_title_only_sed_cex :
    ¬ ((∀ p ∈ (parse_schema_details_only tC10).1,
          (p.2.kind = "action" ∨ p.2.kind = "info") → p.2.title ≠ "" →
            ∃ l ∈ splitLines tC10, (matchTitleLine l.data).isSome)) := by
  intro h
  have hv : ("v", (⟨"v", "action", "Hello", []⟩ : PNode)) ∈
      (parse_schema_details_only tC10).1 := by decide
  obtain ⟨l, hl, ht⟩ := h _ hv (Or.inl rfl) (by decide)
  have hall : ∀ x ∈ splitLines tC10, (matchTitleLine x.data).isSome = false := by decide
  rw [hall l hl] at ht
  simp at ht

/-- Witness: an `Info: [v] X` line discards the inline text `X` — an
    existing action node keeps its title, and the freshly created info
    node gets an empty title. -/
theorem inline_title_only_sed_witness :
    (∃ nd', alGet "w" (parseLine ⟨[("w", ⟨"w", "action", "T", []⟩)], [], [], none, none⟩
        "Info: [v] X").nodes = some nd' ∧ nd'.title = "T") ∧
    alGet "v" (parseLine ⟨[("w", ⟨"w", "action", "T", []⟩)], [], [], none, none⟩
        "Info: [v] X").nodes = some ⟨"v", "info", "", []⟩ := by
  have h := (inline_title_only_sed ⟨[("w", ⟨"w", "action", "T", []⟩)], [], [], none, none⟩
      "Info: [v] X").1 "info" "v" "X" (by decide) (Or.inr (by decide))
  exact ⟨h.1 "w" ⟨"w", "action", "T", []⟩ (by decide), h.2 (by decide)⟩

/-! ## C3: start nodes and column 0 -/

theorem alGet_seedFold (seeds : List String) (c : List (String × Option Nat)) (s : String)
    (h : s ∈ seeds ∨ alGet s c = some (some 0)) :
    alGet s (seeds.foldl (fun c s' => colSet s' (some 0) c) c) = some (some 0) := by
  induction seeds generalizing c with
  | nil =>
      rcases h with h | h
      · exact absurd h (by simp)
      · exact h
  | cons s' rest ih =>
      rw [List.foldl_cons]
      by_cases hss : s = s'
      · subst hss
        by_cases hmem : s ∈ rest
        · exact ih _ (Or.inl hmem)
        · exact ih _ (Or.inr (alGet_colSet_self _ _ _))
      · rcases h with h | h
        · rcases List.mem_cons.mp h with h | h
          · exact absurd h hss
          · exact ih _ (Or.inl h)
        · exact ih _ (Or.inr ((alGet_colSet_ne _ _ _ _ hss).trans h))

theorem relaxEdge_col_other {nodes : List (String × PNode)}
    {rp : List ((String × String) × String)} {u : String} {cu : Nat}
    {st st' : ColState} {v s : String}
    (h : relaxEdge nodes rp u cu st v = .ok st') (hs : s ≠ v) :
    alGet s st'.col = alGet s st.col := by
  unfold relaxEdge at h
  split at h
  · exact absurd h (by simp)
  · split at h
    · exact absurd h (by simp)
    · rw [← Except.ok.inj h]
      exact alGet_colSet_ne _ _ _ _ hs

theorem relaxAll_col_other {nodes : List (String × PNode)}
    {rp : List ((String × String) × String)} {u : String} {cu : Nat} {s : String} :
    ∀ (vs : List String) (st st' : ColState),
      relaxAll nodes rp u cu st vs = .ok st' → s ∉ vs →
      alGet s st'.col = alGet s st.col := by
  intro vs
  induction vs with
  | nil =>
      intro st st' h _
      rw [← Except.ok.inj h]
  | cons v rest ih =>
      intro st st' h hs
      rw [List.mem_cons] at hs
      push_neg at hs
      rw [relaxAll] at h
      split at h
      · exact Except.noConfusion h
      · rename_i st1 heq
        rw [ih _ _ h hs.2, relaxEdge_col_other heq hs.1]

theorem mem_adjGet {edges : List (String × String × String)} {u v : String}
    (h : v ∈ adjGet edges u) : ∃ lbl, (u, v, lbl) ∈ edges := by
  simp only [adjGet, outBySrc, List.mem_map, List.mem_filterMap] at h
  obtain ⟨x, ⟨⟨a, b, c⟩, he, hif⟩, hd⟩ := h
  split at hif
  · rename_i hu
    simp only at hu
    dsimp only at hif
    have hx := Option.some.inj hif
    refine ⟨c, ?_⟩
    have hb : b = v := by rw [← hd, ← hx]
    rw [hu, hb] at he
    exact he
  · exact absurd hif (by simp)

theorem colLoop_col_frame (nodes : List (String × PNode))
    (edges : List (String × String × String))
    (rp : List ((String × String) × String)) (s : String)
    (hnoin : ∀ e ∈ edges, e.2.1 ≠ s) :
    ∀ (fuel : Nat) (st : ColState) (colF : List (String × Option Nat)),
      alGet s st.col = some (some 0) →
      colLoop nodes edges rp fuel st = .finished colF →
      alGet s colF = some (some 0) := by
  intro fuel
  induction fuel with
  | zero =>
      intro st colF _ h
      exact absurd h (by simp [colLoop])
  | succ n ih =>
      intro st colF hcol h
      rw [colLoop] at h
      split at h
      · rw [← LoopRes.finished.inj h]
        exact hcol
      · rename_i u qRest hq
        split at h
        · exact absurd h (by simp)
        · exact absurd h (by simp)
        · split at h
          · exact absurd h (by simp)
          · rename_i st1 heq
            have hnm : s ∉ adjGet edges u := by
              intro hmem
              obtain ⟨lbl, hin⟩ := mem_adjGet hmem
              exact hnoin _ hin rfl
            refine ih st1 colF ?_ h
            rw [relaxAll_col_other _ _ _ heq hnm]
            exact hcol

/-- **C3 (amended).**  Start nodes are seeded with column 0, and every
    start id that is the destination of no edge still has column 0 after
    `assign_columns` completes and normalises (a start node reachable
    through a right-preference decision branch can instead end up in a
    later column). -/
theorem start_column_zero (nodes : List (String × PNode))
    (edges : List (String × String × String)) (start_ids : List String)
    (rp : List ((String × String) × String)) (fuel : Nat)
    {cols : List (String × Nat)} (s : String)
    (hs : s ∈ start_ids)
    (hnoin : ∀ e ∈ edges, e.2.1 ≠ s)
    (hne : nodes ≠ [])
    (hdone : assign_columns nodes edges start_ids rp fuel = .done cols) :
    alGet s cols = some 0 := by
  unfold assign_columns at hdone
  split at hdone
  · exact absurd rfl hne
  · rename_i n0 rest0
    have hnes : start_ids.isEmpty = false := by
      cases start_ids with
      | nil => exact absurd hs (by simp)
      | cons a t => rfl
    rw [hnes] at hdone
    simp only [Bool.false_eq_true, if_false] at hdone
    split at hdone
    · exact absurd hdone (by simp)
    · exact absurd hdone (by simp)
    · rename_i colF hloop
      have hseed : alGet s
          (start_ids.foldl (fun c s' => colSet s' (some 0) c)
            ((n0 :: rest0).map (fun n => (n.1, (none : Option Nat))))) = some (some 0) :=
        alGet_seedFold _ _ _ (Or.inl hs)
      have hcolF : alGet s colF = some (some 0) :=
        colLoop_col_frame _ _ _ _ hnoin fuel _ colF hseed hloop
      split at hdone
      · exact absurd hdone (by simp)
      · rename_i base hbase
        rw [← ColResult.done.inj hdone, alGet_mapVal, hcolF]
        simp [normCol, Nat.sub_self]

/-- **C3 (counterexample).**  In `tC3` the node `s2` has kind `start`
    but is the Yes-branch destination of the decision `d`, so the
    propagation raises it to column `col d + 1 = 1`: after
    `assign_columns` completes, a start node has a non-zero column. -/
theorem start_column_zero_cex :
    (alGet "s2" (parse_schema_details_only tC3).1).map PNode.kind = some "start" ∧
    "s2" ∈ (parse_schema_details_only tC3).2.2 ∧
    alGet "s2" (colsOf (assign_columns (parse_schema_details_only tC3).1
      (parse_schema_details_only tC3).2.1 (parse_schema_details_only tC3).2.2
      (plan_decision_routes (parse_schema_details_only tC3).1
        (parse_schema_details_only tC3).2.1) 100)) = some 1 :=
  ⟨by decide, by decide, by decide⟩

/-- Witness: the scenario schema's start node `s` (no incoming edges)
    ends with column 0. -/
theorem start_column_zero_witness :
    alGet "s" (colsOf (assign_columns (parse_schema_details_only tScenario).1
      (parse_schema_details_only tScenario).2.1 (parse_schema_details_only tScenario).2.2
      (plan_decision_routes (parse_schema_details_only tScenario).1
        (parse_schema_details_only tScenario).2.1) 100)) = some 0 := by
  exact start_column_zero (parse_schema_details_only tScenario).1
    (parse_schema_details_only tScenario).2.1 (parse_schema_details_only tScenario).2.2
    (plan_decision_routes (parse_schema_details_only tScenario).1
      (parse_schema_details_only tScenario).2.1) 100 "s"
    (by decide) (by decide) (by decide) (by decide)

/-! ## C4: column assignment on well-formed graphs -/

theorem alGet_isSome_of_mem {β : Type} {l : List (String × β)} {k : String}
    (h : k ∈ l.map Prod.fst) : (alGet k l).isSome := by
  induction l with
  | nil => simp at h
  | cons p rest ih =>
      simp only [List.map_cons, List.mem_cons] at h
      by_cases hk : k = p.1
      · simp [alGet, hk]
      · simp only [alGet, hk, if_false]
        exact ih (h.resolve_left hk)

theorem alGet_mem {β : Type} {l : List (String × β)} {k : String} {v : β}
    (h : alGet k l = some v) : (k, v) ∈ l := by
  induction l with
  | nil => simp [alGet] at h
  | cons p rest ih =>
      simp only [alGet] at h
      split at h
      · rename_i hk
        obtain ⟨a, b⟩ := p
        simp only at hk
        have hv : b = v := Option.some.inj h
        exact List.mem_cons.mpr (Or.inl (by rw [hk, hv]))
      · exact List.mem_cons.mpr (Or.inr (ih h))

theorem alGet_colSet_isSome {k id : String} {v : Option Nat}
    {l : List (String × Option Nat)} (h : (alGet id l).isSome) :
    (alGet id (colSet k v l)).isSome := by
  by_cases hik : id = k
  · rw [hik, alGet_colSet_self]
    rfl
  · rw [alGet_colSet_ne _ _ _ _ hik]
    exact h

theorem seedFold_isSome (seeds : List String) (c : List (String × Option Nat))
    (id : String) (h : (alGet id c).isSome) :
    (alGet id (seeds.foldl (fun c s' => colSet s' (some 0) c) c)).isSome := by
  induction seeds generalizing c with
  | nil => exact h
  | cons s' rest ih =>
      rw [List.foldl_cons]
      exact ih _ (alGet_colSet_isSome h)

theorem seedFold_some_mem (seeds : List String) (c : List (String × Option Nat))
    (id : String) (n : Nat)
    (h : alGet id (seeds.foldl (fun c s' => colSet s' (some 0) c) c) = some (some n)) :
    id ∈ seeds ∨ alGet id c = some (some n) := by
  induction seeds generalizing c with
  | nil => exact Or.inr h
  | cons s' rest ih =>
      rw [List.foldl_cons] at h
      rcases ih _ h with hmem | hc
      · exact Or.inl (List.mem_cons_of_mem _ hmem)
      · by_cases hik : id = s'
        · exact Or.inl (hik ▸ List.mem_cons_self _ _)
        · rw [alGet_colSet_ne _ _ _ _ hik] at hc
          exact Or.inr hc

theorem relaxVal_isSome (old : Option Nat) (dv : Nat) :
    ∃ m, relaxVal old dv = some m := by
  cases old with
  | none => exact ⟨dv, rfl⟩
  | some c =>
      by_cases h : dv > c
      · exact ⟨dv, by simp [relaxVal, h]⟩
      · exact ⟨c, by simp [relaxVal, h]⟩

theorem relaxEdge_inv {nodes : List (String × PNode)}
    {rp : List ((String × String) × String)}
    {edges : List (String × String × String)} {seeds : List String}
    {u : String} {cu : Nat} {st : ColState} {v : String}
    (hinv : ColInv (nodes.map Prod.fst) edges seeds st)
    (hu : u ∈ nodes.map Prod.fst)
    (hru : Reach edges seeds u)
    (hv : ∃ lbl, (u, v, lbl) ∈ edges)
    (hvid : v ∈ nodes.map Prod.fst) :
    ∃ st', relaxEdge nodes rp u cu st v = .ok st' ∧
      ColInv (nodes.map Prod.fst) edges seeds st' := by
  obtain ⟨h1, h2, h3, h4, h5, h6⟩ := hinv
  obtain ⟨nd, hnd⟩ := Option.isSome_iff_exists.mp (alGet_isSome_of_mem hu)
  obtain ⟨old, hold⟩ := Option.isSome_iff_exists.mp (h1 v hvid)
  simp only [relaxEdge, hnd, hold]
  refine ⟨_, rfl, ?_, ?_, ?_, ?_, ?_, ?_⟩
  · intro id hid
    exact alGet_colSet_isSome (h1 id hid)
  · intro w hw
    dsimp only at hw ⊢
    by_cases hwv : w = v
    · subst hwv
      rw [alGet_colSet_self]
      obtain ⟨m, hm⟩ := relaxVal_isSome old (candCol (nd.kind = "decision") (rpGet (u, w) rp) cu)
      exact ⟨m, by rw [hm]⟩
    · rw [alGet_colSet_ne _ _ _ _ hwv]
      split at hw
      · exact h2 w (List.mem_append.mp hw |>.elim id (fun hh => absurd (List.mem_singleton.mp hh) hwv))
      · exact h2 w hw
  · intro w hw
    dsimp only at hw
    split at hw
    · rcases List.mem_append.mp hw with hh | hh
      · exact h3 w hh
      · rw [List.mem_singleton.mp hh]
        exact hvid
    · exact h3 w hw
  · intro w hw
    dsimp only at hw
    split at hw
    · rcases List.mem_append.mp hw with hh | hh
      · exact h4 w hh
      · obtain ⟨lbl, hlbl⟩ := hv
        rw [List.mem_singleton.mp hh]
        exact Reach.step hru hlbl
    · exact h4 w hw
  · intro id n hid
    dsimp only at hid
    by_cases hiv : id = v
    · obtain ⟨lbl, hlbl⟩ := hv
      exact hiv ▸ Reach.step hru hlbl
    · rw [alGet_colSet_ne _ _ _ _ hiv] at hid
      exact h5 id n hid
  · obtain ⟨m, hm⟩ := relaxVal_isSome old (candCol (nd.kind = "decision") (rpGet (u, v) rp) cu)
    exact ⟨v, m, by dsimp only; rw [alGet_colSet_self, hm]⟩

theorem relaxAll_inv {nodes : List (String × PNode)}
    {rp : List ((String × String) × String)}
    {edges : List (String × String × String)} {seeds : List String}
    {u : String} {cu : Nat}
    (hu : u ∈ nodes.map Prod.fst) (hru : Reach edges seeds u) :
    ∀ (vs : List String) (st : ColState),
      ColInv (nodes.map Prod.fst) edges seeds st →
      (∀ w ∈ vs, w ∈ nodes.map Prod.fst ∧ ∃ lbl, (u, w, lbl) ∈ edges) →
      ∃ st', relaxAll nodes rp u cu st vs = .ok st' ∧
        ColInv (nodes.map Prod.fst) edges seeds st' := by
  intro vs
  induction vs with
  | nil =>
      intro st hinv _
      exact ⟨st, rfl, hinv⟩
  | cons v rest ih =>
      intro st hinv hws
      obtain ⟨hvid, hvedge⟩ := hws v (List.mem_cons_self _ _)
      obtain ⟨st1, hok, hinv1⟩ := relaxEdge_inv hinv hu hru hvedge hvid
      obtain ⟨st', hok', hinv'⟩ :=
        ih st1 hinv1 (fun w hw => hws w (List.mem_cons_of_mem _ hw))
      refine ⟨st', ?_, hinv'⟩
      rw [relaxAll, hok]
      exact hok'

theorem adjGet_spec {ids0 : List String}
    {edges : List (String × String × String)} {u w : String}
    (hids : ∀ e ∈ edges, e.2.1 ∈ ids0)
    (hw : w ∈ adjGet edges u) : w ∈ ids0 ∧ ∃ lbl, (u, w, lbl) ∈ edges := by
  obtain ⟨lbl, hlbl⟩ := mem_adjGet hw
  exact ⟨hids _ hlbl, lbl, hlbl⟩

theorem colLoop_inv {nodes : List (String × PNode)}
    {rp : List ((String × String) × String)}
    {edges : List (String × String × String)} {seeds : List String}
    (hids : ∀ e ∈ edges, e.2.1 ∈ nodes.map Prod.fst) :
    ∀ (fuel : Nat) (st : ColState),
      ColInv (nodes.map Prod.fst) edges seeds st →
      colLoop nodes edges rp fuel st ≠ .error ∧
      (∀ colF, colLoop nodes edges rp fuel st = .finished colF →
        ColFinal (nodes.map Prod.fst) edges seeds colF) := by
  intro fuel
  induction fuel with
  | zero =>
      intro st _
      constructor
      · simp [colLoop]
      · intro colF h
        exact absurd h (by simp [colLoop])
  | succ n ih =>
      intro st hinv
      obtain ⟨h1, h2, h3, h4, h5, h6⟩ := hinv
      rw [colLoop]
      cases hq : st.q with
      | nil =>
          constructor
          · simp
          · intro colF h
            dsimp only at h
            simp only [LoopRes.finished.injEq] at h
            exact h ▸ ⟨h1, h5, h6⟩
      | cons u qRest =>
          obtain ⟨cu, hcu⟩ := h2 u (by rw [hq]; exact List.mem_cons_self _ _)
          have hmid : ColInv (nodes.map Prod.fst) edges seeds { st with q := qRest } := by
            refine ⟨h1, ?_, ?_, ?_, h5, h6⟩
            · intro w hw
              exact h2 w (by rw [hq]; exact List.mem_cons_of_mem _ hw)
            · intro w hw
              exact h3 w (by rw [hq]; exact List.mem_cons_of_mem _ hw)
            · intro w hw
              exact h4 w (by rw [hq]; exact List.mem_cons_of_mem _ hw)
          have hu : u ∈ nodes.map Prod.fst :=
            h3 u (by rw [hq]; exact List.mem_cons_self _ _)
          have hru : Reach edges seeds u :=
            h4 u (by rw [hq]; exact List.mem_cons_self _ _)
          obtain ⟨st', hok, hinv'⟩ :=
            relaxAll_inv hu hru (adjGet edges u) { st with q := qRest } hmid
              (fun w hw => adjGet_spec hids hw)
          simp only [hcu]
          rw [hok]
          exact ih st' hinv'

theorem alGet_initNone {β : Type} (id : String) (l : List (String × β)) :
    ∀ v, alGet id (l.map (fun n => (n.1, (none : Option Nat)))) = some v → v = none := by
  induction l with
  | nil =>
      intro v h
      exact absurd h (by simp [alGet])
  | cons p rest ih =>
      intro v h
      simp only [List.map_cons, alGet] at h
      split at h
      · exact (Option.some.inj h).symm
      · exact ih v h

theorem filterMap_snd_ne_nil {colF : List (String × Option Nat)} {id : String} {n : Nat}
    (h : alGet id colF = some (some n)) : colF.filterMap (fun p => p.2) ≠ [] := by
  intro hnil
  have hmem : (n : Nat) ∈ colF.filterMap (fun p => p.2) :=
    List.mem_filterMap.mpr ⟨(id, some n), alGet_mem h, rfl⟩
  rw [hnil] at hmem
  exact absurd hmem (by simp)

/-- **C4 (amended).**  On a non-empty parsed graph whose edge
    destinations and start ids are all declared node ids,
    `assign_columns` never raises: the `KeyError` of a dangling edge
    destination is the only failure mode.  When the loop completes,
    every node is assigned a (non-negative, `Nat`-valued) column, and
    every node unreachable from the seeds ends with column 0. -/
theorem assign_columns_safe (nodes : List (String × PNode))
    (edges : List (String × String × String)) (start_ids : List String)
    (rp : List ((String × String) × String))
    (hids : ∀ e ∈ edges, e.2.1 ∈ nodes.map Prod.fst)
    (hstart : ∀ s ∈ start_ids, s ∈ nodes.map Prod.fst)
    (hne : nodes ≠ []) :
    (∀ fuel, assign_columns nodes edges start_ids rp fuel ≠ .error) ∧
    (∀ fuel cols, assign_columns nodes edges start_ids rp fuel = .done cols →
      (∀ id ∈ nodes.map Prod.fst, ∃ c, alGet id cols = some c) ∧
      (∀ id ∈ nodes.map Prod.fst,
        ¬ Reach edges (seedsOf nodes start_ids) id → alGet id cols = some 0)) := by
  cases hsplit : nodes with
  | nil => exact absurd hsplit hne
  | cons n0 rest0 =>
  subst hsplit
  have hseeds : seedsOf (n0 :: rest0) start_ids =
      (if start_ids.isEmpty then [n0.1] else start_ids) := rfl
  have hsub : ∀ s ∈ (if start_ids.isEmpty then [n0.1] else start_ids),
      s ∈ (n0 :: rest0).map Prod.fst := by
    split
    · intro s hs
      rw [List.mem_singleton.mp hs]
      simp
    · exact hstart
  have hinv0 : ColInv ((n0 :: rest0).map Prod.fst) edges
      (seedsOf (n0 :: rest0) start_ids)
      { col := (if start_ids.isEmpty then [n0.1] else start_ids).foldl
          (fun c s => colSet s (some 0) c)
          ((n0 :: rest0).map (fun n => (n.1, none))),
        indeg := edges.foldl (fun d e => indegAdd e.2.1 1 d) [],
        q := if start_ids.isEmpty then [n0.1] else start_ids } := by
    have hcol0 : ∀ id ∈ (n0 :: rest0).map Prod.fst,
        (alGet id ((n0 :: rest0).map (fun n => (n.1, (none : Option Nat))))).isSome := by
      intro id hid
      apply alGet_isSome_of_mem
      simpa [List.map_map, Function.comp] using hid
    have hcol0none : ∀ id n,
        alGet id ((n0 :: rest0).map (fun n => (n.1, (none : Option Nat)))) ≠ some (some n) := by
      intro id n hcontra
      exact Option.noConfusion (alGet_initNone id (n0 :: rest0) (some n) hcontra)
    refine ⟨?_, ?_, ?_, ?_, ?_, ?_⟩
    · intro id hid
      exact seedFold_isSome _ _ _ (hcol0 id hid)
    · intro w hw
      exact ⟨0, alGet_seedFold _ _ _ (Or.inl hw)⟩
    · exact hsub
    · intro w hw
      exact Reach.seed (hseeds ▸ hw)
    · intro id n hid
      rcases seedFold_some_mem _ _ _ _ hid with hmem | hc
      · exact Reach.seed (hseeds ▸ hmem)
      · exact absurd hc (hcol0none id n)
    · cases hcase : (if start_ids.isEmpty then [n0.1] else start_ids) with
      | nil =>
          exfalso
          revert hcase
          split
          · intro hcase
            exact absurd hcase (by simp)
          · intro hcase
            rename_i hnemp
            rw [hcase] at hnemp
            exact hnemp rfl
      | cons s0 srest =>
          refine ⟨s0, 0, ?_⟩
          rw [← hcase]
          exact alGet_seedFold _ _ _ (Or.inl (by rw [hcase]; exact List.mem_cons_self _ _))
  have hmain := fun fuel =>
    @colLoop_inv (n0 :: rest0) rp edges (seedsOf (n0 :: rest0) start_ids) hids fuel _ hinv0
  constructor
  · intro fuel
    unfold assign_columns
    simp only []
    cases hloop : colLoop (n0 :: rest0) edges rp fuel
        { col := (if start_ids.isEmpty then [n0.1] else start_ids).foldl
            (fun c s => colSet s (some 0) c)
            ((n0 :: rest0).map (fun n => (n.1, none))),
          indeg := edges.foldl (fun d e => indegAdd e.2.1 1 d) [],
          q := if start_ids.isEmpty then [n0.1] else start_ids } with
    | finished colF =>
        dsimp only
        obtain ⟨hf1, hf2, id0, m0, hf3⟩ := (hmain fuel).2 colF hloop
        cases hfm : (colF.filterMap (fun p => p.2)).min? with
        | none =>
            exfalso
            cases hcl : colF.filterMap (fun p => p.2) with
            | nil => exact filterMap_snd_ne_nil hf3 hcl
            | cons a t => rw [hcl] at hfm; exact absurd hfm (by simp [List.min?])
        | some base =>
            simp
    | error =>
        exact absurd hloop (hmain fuel).1
    | fuelOut =>
        simp
  · intro fuel cols hdone
    unfold assign_columns at hdone
    simp only [] at hdone
    cases hloop : colLoop (n0 :: rest0) edges rp fuel
        { col := (if start_ids.isEmpty then [n0.1] else start_ids).foldl
            (fun c s => colSet s (some 0) c)
            ((n0 :: rest0).map (fun n => (n.1, none))),
          indeg := edges.foldl (fun d e => indegAdd e.2.1 1 d) [],
          q := if start_ids.isEmpty then [n0.1] else start_ids } with
    | error => rw [hloop] at hdone; exact absurd hdone (by simp)
    | fuelOut => rw [hloop] at hdone; exact absurd hdone (by simp)
    | finished colF =>
        rw [hloop] at hdone
        dsimp only at hdone
        obtain ⟨hf1, hf2, id0, m0, hf3⟩ := (hmain fuel).2 colF hloop
        cases hfm : (colF.filterMap (fun p => p.2)).min? with
        | none => rw [hfm] at hdone; exact absurd hdone (by simp)
        | some base =>
            rw [hfm] at hdone
            have hcols : cols = colF.map (fun p => (p.1, normCol base p.2)) :=
              (ColResult.done.inj hdone).symm
            constructor
            · intro id hid
              obtain ⟨c, hc⟩ := Option.isSome_iff_exists.mp (hf1 id hid)
              refine ⟨normCol base c, ?_⟩
              rw [hcols, alGet_mapVal, hc]
              rfl
            · intro id hid hnr
              obtain ⟨c, hc⟩ := Option.isSome_iff_exists.mp (hf1 id hid)
              cases c with
              | some m => exact absurd (hf2 id m hc) hnr
              | none =>
                  rw [hcols, alGet_mapVal, hc]
                  simp [normCol, Nat.sub_self]

/-- **C4 (counterexample).**  `Leads to: [ghost]` creates an edge whose
    destination is never declared as a node: the relaxation then looks
    up `col["ghost"]`, a `KeyError`, so `assign_columns` raises instead
    of completing. -/
theorem assign_columns_cex :
    assign_columns (parse_schema_details_only tC4).1
      (parse_schema_details_only tC4).2.1 (parse_schema_details_only tC4).2.2
      (plan_decision_routes (parse_schema_details_only tC4).1
        (parse_schema_details_only tC4).2.1) 100 = .error := by
  decide

/-- Witness for the amended C4 theorem: on `tC4w` (all edge destinations
    declared) the assignment never errors, and the unreachable info node
    `i` ends with column 0. -/
theorem assign_columns_safe_witness :
    assign_columns (parse_schema_details_only tC4w).1
      (parse_schema_details_only tC4w).2.1 (parse_schema_details_only tC4w).2.2
      (plan_decision_routes (parse_schema_details_only tC4w).1
        (parse_schema_details_only tC4w).2.1) 100 ≠ .error ∧
    alGet "i" (colsOf (assign_columns (parse_schema_details_only tC4w).1
      (parse_schema_details_only tC4w).2.1 (parse_schema_details_only tC4w).2.2
      (plan_decision_routes (parse_schema_details_only tC4w).1
        (parse_schema_details_only tC4w).2.1) 100)) = some 0 := by
  have h := assign_columns_safe (parse_schema_details_only tC4w).1
    (parse_schema_details_only tC4w).2.1 (parse_schema_details_only tC4w).2.2
    (plan_decision_routes (parse_schema_details_only tC4w).1
      (parse_schema_details_only tC4w).2.1)
    (by decide) (by decide) (by decide)
  refine ⟨h.1 100, ?_⟩
  have hnr : ¬ Reach (parse_schema_details_only tC4w).2.1
      (seedsOf (parse_schema_details_only tC4w).1
        (parse_schema_details_only tC4w).2.2) "i" := by
    intro hr
    cases hr with
    | seed hs => exact absurd hs (by decide)
    | step hr' he =>
        rename_i u lbl
        have he' : (u, "i", lbl) ∈ [("s", "a", "")] := he
        simp at he'
  cases hcase : assign_columns (parse_schema_details_only tC4w).1
      (parse_schema_details_only tC4w).2.1 (parse_schema_details_only tC4w).2.2
      (plan_decision_routes (parse_schema_details_only tC4w).1
        (parse_schema_details_only tC4w).2.1) 100 with
  | error => exact absurd hcase (h.1 100)
  | fuelOut => exact absurd hcase (by decide)
  | done cols =>
      have h2 := ((h.2 100 cols hcase).2) "i" (by decide) hnr
      simpa [colsOf] using h2

/-! ## C5: lane non-overlap of registered connector segments -/

theorem lanesOverlap_symm {l1 l2 : Bool × Int × Int × Int}
    (h : lanesOverlap l1 l2) : lanesOverlap l2 l1 := by
  obtain ⟨ha, hc, hr⟩ := h
  exact ⟨ha.symm, hc.symm, by omega⟩

theorem usedLanes_regSeg_mono (s : Seg) (used : Used) {l : Bool × Int × Int × Int}
    (h : l ∈ usedLanes used) : l ∈ usedLanes (regSeg s used) := by
  unfold regSeg
  split
  · simp only [usedLanes, List.map_cons, List.cons_append, List.mem_cons,
      List.mem_append] at h ⊢
    tauto
  · split
    · simp only [usedLanes, List.map_cons, List.mem_cons, List.mem_append] at h ⊢
      tauto
    · exact h

theorem usedLanes_regSeg_self (s : Seg) (used : Used) {l : Bool × Int × Int × Int}
    (h : laneOf s = some l) : l ∈ usedLanes (regSeg s used) := by
  unfold laneOf at h
  unfold regSeg
  by_cases hx : s.p.1 = s.q.1
  · rw [if_pos hx] at h ⊢
    rw [← Option.some.inj h]
    simp [usedLanes]
  · rw [if_neg hx] at h ⊢
    by_cases hy : s.p.2 = s.q.2
    · rw [if_pos hy] at h ⊢
      rw [← Option.some.inj h]
      simp [usedLanes]
    · rw [if_neg hy] at h
      exact absurd h (by simp)

theorem laneFree_avoid {s : Seg} {used : Used} {l l' : Bool × Int × Int × Int}
    (hfree : lane_free s.p s.q used false = true)
    (hl : laneOf s = some l) (hl' : l' ∈ usedLanes used) :
    ¬ lanesOverlap l l' := by
  intro hover
  unfold laneOf at hl
  simp only [lane_free, Bool.false_eq_true, if_false] at hfree
  simp only [usedLanes, List.mem_append] at hl'
  by_cases hx : s.p.1 = s.q.1
  · rw [if_pos hx] at hl hfree
    have hl2 : l = (true, s.p.1, min s.p.2 s.q.2, max s.p.2 s.q.2) :=
      (Option.some.inj hl).symm
    subst hl2
    rcases hl' with hv | hh
    · obtain ⟨e, he, hel⟩ := List.mem_map.mp hv
      have hle := List.all_eq_true.mp hfree e he
      obtain ⟨ha, hc, hr⟩ := hover
      rw [← hel] at hc hr
      dsimp only at hc hr
      simp only [Bool.not_eq_true', Bool.and_eq_false_iff, decide_eq_false_iff_not,
        Bool.not_eq_false', Bool.or_eq_true, decide_eq_true_eq] at hle
      omega
    · obtain ⟨e, he, hel⟩ := List.mem_map.mp hh
      obtain ⟨ha, _, _⟩ := hover
      rw [← hel] at ha
      exact Bool.noConfusion ha
  · rw [if_neg hx] at hl hfree
    by_cases hy : s.p.2 = s.q.2
    · rw [if_pos hy] at hl hfree
      have hl2 : l = (false, s.p.2, min s.p.1 s.q.1, max s.p.1 s.q.1) :=
        (Option.some.inj hl).symm
      subst hl2
      rcases hl' with hv | hh
      · obtain ⟨e, he, hel⟩ := List.mem_map.mp hv
        obtain ⟨ha, _, _⟩ := hover
        rw [← hel] at ha
        exact Bool.noConfusion ha
      · obtain ⟨e, he, hel⟩ := List.mem_map.mp hh
        have hle := List.all_eq_true.mp hfree e he
        obtain ⟨ha, hc, hr⟩ := hover
        rw [← hel] at hc hr
        dsimp only at hc hr
        simp only [Bool.not_eq_true', Bool.and_eq_false_iff, decide_eq_false_iff_not,
          Bool.not_eq_false', Bool.or_eq_true, decide_eq_true_eq] at hle
        omega
    · rw [if_neg hy] at hl
      exact absurd hl (by simp)

theorem route_laneFree {p1 p2 : Pt} {rects_all exclude_rects : List Rct}
    {used : Used} {r : RouteRes}
    (hr : route_orthogonal_detour p1 p2 rects_all exclude_rects used false = r)
    (hk : r.kind ≠ .fallback) :
    ∀ s ∈ r.segs, lane_free s.p s.q used false = true := by
  simp only [route_orthogonal_detour] at hr
  split at hr
  · rename_i hcond
    subst hr
    simp only [Bool.and_eq_true] at hcond
    intro s hs
    simp only [accept2, List.mem_cons, List.not_mem_nil, or_false] at hs
    rcases hs with hs | hs
    · subst hs
      exact hcond.1.2
    · subst hs
      exact hcond.2
  · split at hr
    · rename_i hcond
      subst hr
      simp only [Bool.and_eq_true] at hcond
      intro s hs
      simp only [accept2, List.mem_cons, List.not_mem_nil, or_false] at hs
      rcases hs with hs | hs
      · subst hs
        exact hcond.1.2
      · subst hs
        exact hcond.2
    · split at hr
      · rename_i yg hfind
        subst hr
        have hok := List.find?_some hfind
        simp only [ok3, Bool.and_eq_true] at hok
        intro s hs
        simp only [accept3, List.mem_cons, List.not_mem_nil, or_false] at hs
        rcases hs with hs | hs | hs
        · subst hs
          exact hok.1.1.2
        · subst hs
          exact hok.1.2
        · subst hs
          exact hok.2
      · split at hr
        · rename_i xg hfind
          subst hr
          have hok := List.find?_some hfind
          simp only [ok3, Bool.and_eq_true] at hok
          intro s hs
          simp only [accept3, List.mem_cons, List.not_mem_nil, or_false] at hs
          rcases hs with hs | hs | hs
          · subst hs
            exact hok.1.1.2
          · subst hs
            exact hok.1.2
          · subst hs
            exact hok.2
        · subst hr
          exact absurd rfl hk

theorem route_used_spec (p1 p2 : Pt) (rects_all exclude_rects : List Rct)
    (used : Used) (ig : Bool) {r : RouteRes}
    (hr : route_orthogonal_detour p1 p2 rects_all exclude_rects used ig = r) :
    (∀ l ∈ usedLanes used, l ∈ usedLanes r.used) ∧
    (∀ s ∈ r.segs, ∀ l, laneOf s = some l → l ∈ usedLanes r.used) := by
  simp only [route_orthogonal_detour] at hr
  split at hr
  · subst hr
    constructor
    · intro l hl
      exact usedLanes_regSeg_mono _ _ (usedLanes_regSeg_mono _ _ hl)
    · intro s hs l hl
      simp only [accept2, List.mem_cons, List.not_mem_nil, or_false] at hs
      rcases hs with hs | hs
      · subst hs
        exact usedLanes_regSeg_mono _ _ (usedLanes_regSeg_self _ _ hl)
      · subst hs
        exact usedLanes_regSeg_self _ _ hl
  · split at hr
    · subst hr
      constructor
      · intro l hl
        exact usedLanes_regSeg_mono _ _ (usedLanes_regSeg_mono _ _ hl)
      · intro s hs l hl
        simp only [accept2, List.mem_cons, List.not_mem_nil, or_false] at hs
        rcases hs with hs | hs
        · subst hs
          exact usedLanes_regSeg_mono _ _ (usedLanes_regSeg_self _ _ hl)
        · subst hs
          exact usedLanes_regSeg_self _ _ hl
    · split at hr
      · subst hr
        constructor
        · intro l hl
          exact usedLanes_regSeg_mono _ _
            (usedLanes_regSeg_mono _ _ (usedLanes_regSeg_mono _ _ hl))
        · intro s hs l hl
          simp only [accept3, List.mem_cons, List.not_mem_nil, or_false] at hs
          rcases hs with hs | hs | hs
          · subst hs
            exact usedLanes_regSeg_mono _ _
              (usedLanes_regSeg_mono _ _ (usedLanes_regSeg_self _ _ hl))
          · subst hs
            exact usedLanes_regSeg_mono _ _ (usedLanes_regSeg_self _ _ hl)
          · subst hs
            exact usedLanes_regSeg_self _ _ hl
      · split at hr
        · subst hr
          constructor
          · intro l hl
            exact usedLanes_regSeg_mono _ _
              (usedLanes_regSeg_mono _ _ (usedLanes_regSeg_mono _ _ hl))
          · intro s hs l hl
            simp only [accept3, List.mem_cons, List.not_mem_nil, or_false] at hs
            rcases hs with hs | hs | hs
            · subst hs
              exact usedLanes_regSeg_mono _ _
                (usedLanes_regSeg_mono _ _ (usedLanes_regSeg_self _ _ hl))
            · subst hs
              exact usedLanes_regSeg_mono _ _ (usedLanes_regSeg_self _ _ hl)
            · subst hs
              exact usedLanes_regSeg_self _ _ hl
        · subst hr
          constructor
          · intro l hl
            exact usedLanes_regSeg_mono _ _ hl
          · intro s hs l hl
            simp only [List.mem_cons, List.not_mem_nil, or_false] at hs
            subst hs
            exact usedLanes_regSeg_self _ _ hl

theorem processEdge_spec {shapes : List (String × Rct)} {rects_all : List Rct}
    {rp : List ((String × String) × String)} {incoming : String → Nat}
    {st : RenderSt} {e : String × String × String} {st' : RenderSt} {o : EdgeOut}
    (h : processEdge shapes rects_all rp incoming st e = .ok (st', o)) :
    (∀ l ∈ usedLanes st.used, l ∈ usedLanes st'.used) ∧
    (∀ s ∈ o.segs, ∀ l, laneOf s = some l → l ∈ usedLanes st'.used) ∧
    (o.kind ≠ .fallback → o.ignored = false →
      ∀ s ∈ o.route, lane_free s.p s.q st.used false = true) := by
  simp only [processEdge] at h
  split at h
  · rename_i su sv hsu hsv
    split at h
    · split at h
      · rename_i al hal
        obtain ⟨hst, ho⟩ := Prod.mk.injEq _ _ _ _ ▸ Except.ok.inj h
        obtain ⟨hrsub, hrreg⟩ := route_used_spec (mid_right su) al.2 rects_all
          [su, sv] st.used (incoming e.2.1 > 1) rfl
        refine ⟨?_, ?_, ?_⟩
        · intro l hl
          rw [← hst]
          exact usedLanes_regSeg_mono _ _ (hrsub l hl)
        · intro s hs l hl
          rw [← ho] at hs
          rw [← hst]
          simp only [EdgeOut.segs, Option.toList_some, List.mem_append,
            List.mem_cons, List.not_mem_nil, or_false] at hs
          rcases hs with hs | hs
          · exact usedLanes_regSeg_mono _ _ (hrreg s hs l hl)
          · subst hs
            exact usedLanes_regSeg_self _ _ hl
        · intro hk hig s hs
          rw [← ho] at hig hk hs
          dsimp only at hig hk hs
          rw [hig] at hs hk
          exact route_laneFree rfl hk s hs
      · exact Except.noConfusion h
    · obtain ⟨hst, ho⟩ := Prod.mk.injEq _ _ _ _ ▸ Except.ok.inj h
      obtain ⟨hrsub, hrreg⟩ := route_used_spec (bottom_mid su) (top_mid sv) rects_all
        [su, sv] st.used false rfl
      refine ⟨?_, ?_, ?_⟩
      · intro l hl
        rw [← hst]
        exact hrsub l hl
      · intro s hs l hl
        rw [← ho] at hs
        rw [← hst]
        simp only [EdgeOut.segs, Option.toList_none, List.append_nil] at hs
        exact hrreg s hs l hl
      · intro hk hig s hs
        rw [← ho] at hk hs
        dsimp only at hk hs
        exact route_laneFree rfl hk s hs
  · exact Except.noConfusion h

theorem processEdges_avoid {shapes : List (String × Rct)} {rects_all : List Rct}
    {rp : List ((String × String) × String)} {incoming : String → Nat} :
    ∀ (es : List (String × String × String)) (st : RenderSt)
      {stF : RenderSt} {os : List EdgeOut},
      processEdges shapes rects_all rp incoming es st = .ok (stF, os) →
      ∀ o ∈ os, o.kind ≠ .fallback → o.ignored = false →
        ∀ s ∈ o.route, ∀ l2, laneOf s = some l2 →
          ∀ l1 ∈ usedLanes st.used, ¬ lanesOverlap l1 l2 := by
  intro es
  induction es with
  | nil =>
      intro st stF os h
      have hos : os = [] := (Prod.mk.injEq _ _ _ _ ▸ Except.ok.inj h).2.symm
      subst hos
      intro o ho
      exact absurd ho (by simp)
  | cons e rest ih =>
      intro st stF os h
      rw [processEdges] at h
      split at h
      · exact Except.noConfusion h
      · rename_i st1 o1 hpe
        split at h
        · exact Except.noConfusion h
        · rename_i stR osR hrec
          obtain ⟨hstF, hos⟩ := Prod.mk.injEq _ _ _ _ ▸ Except.ok.inj h
          subst hos
          intro o ho hk hig s hs l2 hl2 l1 hl1
          rcases List.mem_cons.mp ho with hoe | hor
          · subst hoe
            have hfree := (processEdge_spec hpe).2.2 hk hig s hs
            intro hov
            exact laneFree_avoid hfree hl2 hl1 (lanesOverlap_symm hov)
          · have hmono := (processEdge_spec hpe).1
            exact ih st1 hrec o hor hk hig s hs l2 hl2 l1 (hmono l1 hl1)

theorem processEdges_c5 {shapes : List (String × Rct)} {rects_all : List Rct}
    {rp : List ((String × String) × String)} {incoming : String → Nat} :
    ∀ (es : List (String × String × String)) (st : RenderSt)
      {stF : RenderSt} {os : List EdgeOut},
      processEdges shapes rects_all rp incoming es st = .ok (stF, os) →
      c5Amended os := by
  intro es
  induction es with
  | nil =>
      intro st stF os h
      have hos : os = [] := (Prod.mk.injEq _ _ _ _ ▸ Except.ok.inj h).2.symm
      subst hos
      exact List.Pairwise.nil
  | cons e rest ih =>
      intro st stF os h
      rw [processEdges] at h
      split at h
      · exact Except.noConfusion h
      · rename_i st1 o1 hpe
        split at h
        · exact Except.noConfusion h
        · rename_i stR osR hrec
          obtain ⟨hstF, hos⟩ := Prod.mk.injEq _ _ _ _ ▸ Except.ok.inj h
          subst hos
          refine List.Pairwise.cons ?_ (ih st1 hrec)
          intro oj hoj hk hig s1 hs1 s2 hs2 l1 hl1 l2 hl2
          have hl1mem : l1 ∈ usedLanes st1.used :=
            (processEdge_spec hpe).2.1 s1 hs1 l1 hl1
          exact processEdges_avoid rest st1 hrec oj hoj hk hig s2 hs2 l2 hl2 l1 hl1mem

/-- **C5 (amended).**  In one render pass, a connector route produced
    with lane checking enabled (its edge is not a shared-destination
    edge, so `ignore_lanes` is false) and not by the last-resort
    fallback stage never overlaps — same axis, same fixed coordinate,
    properly intersecting ranges — any registered segment drawn for an
    earlier edge, including that edge's shared arrival segment.  The
    exceptions are real: routes of shared-destination edges skip the
    lane check entirely, fallback segments are drawn regardless of lane
    conflicts, and shared arrival segments are registered without being
    checked. -/
theorem lane_nonoverlap_amended (fm : FontM) (fuel : Nat) (text : String)
    {shapes : List (String × Rct)} {outs : List EdgeOut} {usedF : Used}
    (h : pipeline fm fuel text = .ok shapes outs usedF) :
    c5Amended outs := by
  simp only [pipeline] at h
  split at h
  · exact PipeResult.noConfusion h
  · exact PipeResult.noConfusion h
  · split at h
    · exact PipeResult.noConfusion h
    · split at h
      · exact PipeResult.noConfusion h
      · split at h
        · exact PipeResult.noConfusion h
        · split at h
          · exact PipeResult.noConfusion h
          · rename_i stF osR hpes
            have houts : osR = outs := (PipeResult.ok.inj h).2.1
            subst houts
            exact processEdges_c5 _ _ hpes

/-- **C5 (counterexample).**  On `tC5` two edges (`s → x` and the Yes
    branch of `d`) both target `x`, so both routes run with
    `ignore_lanes` and their vertical segments share the lane
    `x = 3657600` with properly overlapping ranges; neither offending
    segment is a shared arrival segment, so the claimed exception does
    not cover the pair. -/
theorem lane_nonoverlap_cex :
    pipeOuts (pipeline fmTest 100 tC5) ≠ [] ∧
    ¬ c5Claim (pipeOuts (pipeline fmTest 100 tC5)) :=
  ⟨by decide, by decide⟩

/-- Witness for the amended C5 theorem: the scenario schema renders
    successfully and its connector outputs satisfy the amended
    non-overlap property. -/
theorem lane_nonoverlap_amended_witness :
    c5Amended (pipeOuts (pipeline fmTest 100 tScenario)) := by
  cases hp : pipeline fmTest 100 tScenario with
  | ok s o u => exact lane_nonoverlap_amended fmTest 100 tScenario hp
  | emptyGraph => exact absurd hp (by decide)
  | error => exact absurd hp (by decide)
  | fuelOut => exact absurd hp (by decide)

/-! ## C7: the shared destination-arrival lane -/

theorem laneGet_append {k : String × String}
    {l l' : List ((String × String) × (Pt × Pt))} :
    laneGet k (l ++ l') = (laneGet k l).elim (laneGet k l') some := by
  induction l with
  | nil => rfl
  | cons p rest ih =>
      obtain ⟨k', v⟩ := p
      rw [List.cons_append]
      simp only [laneGet]
      split
      · rfl
      · exact ih

theorem processEdge_arrival {shapes : List (String × Rct)} {rects_all : List Rct}
    {rp : List ((String × String) × String)} {incoming : String → Nat}
    {st : RenderSt} {e : String × String × String} {st' : RenderSt} {o : EdgeOut}
    (hcanon : lanesCanon shapes st.lanes)
    (h : processEdge shapes rects_all rp incoming st e = .ok (st', o)) :
    lanesCanon shapes st'.lanes ∧
    (∀ a, o.arrival = some a →
      ∃ sv, alGet e.2.1 shapes = some sv ∧
        a = ⟨(canonLane sv).2, (canonLane sv).1, true⟩) := by
  simp only [processEdge] at h
  split at h
  · rename_i su sv hsu hsv
    split at h
    · split at h
      · rename_i al hal
        obtain ⟨hst, ho⟩ := Prod.mk.injEq _ _ _ _ ▸ Except.ok.inj h
        have hc1 : lanesCanon shapes
            (if (laneGet (e.2.1, "left") st.lanes).isSome = true
             then st.lanes else st.lanes ++ [((e.2.1, "left"), canonLane sv)]) := by
          split
          · exact hcanon
          · intro k val hget
            rw [laneGet_append] at hget
            cases hkl : laneGet k st.lanes with
            | some w =>
                rw [hkl] at hget
                simp only [Option.elim] at hget
                obtain ⟨sv', h1, h2⟩ := hcanon k w hkl
                exact ⟨sv', h1, by rw [← Option.some.inj hget]; exact h2⟩
            | none =>
                rw [hkl] at hget
                simp only [Option.elim, laneGet] at hget
                split at hget
                · rename_i hk
                  refine ⟨sv, ?_, (Option.some.inj hget).symm⟩
                  rw [hk]
                  exact hsv
                · exact Option.noConfusion hget
        constructor
        · rw [← hst]
          exact hc1
        · intro a ha
          rw [← ho] at ha
          dsimp only at ha
          obtain ⟨sv', hsv', hval⟩ := hc1 (e.2.1, "left") al hal
          refine ⟨sv', hsv', ?_⟩
          rw [← Option.some.inj ha, hval]
      · exact Except.noConfusion h
    · obtain ⟨hst, ho⟩ := Prod.mk.injEq _ _ _ _ ▸ Except.ok.inj h
      constructor
      · rw [← hst]
        exact hcanon
      · intro a ha
        rw [← ho] at ha
        exact Option.noConfusion ha
  · exact Except.noConfusion h

theorem processEdges_arrival {shapes : List (String × Rct)} {rects_all : List Rct}
    {rp : List ((String × String) × String)} {incoming : String → Nat} :
    ∀ (es : List (String × String × String)) (st : RenderSt)
      {stF : RenderSt} {os : List EdgeOut},
      lanesCanon shapes st.lanes →
      processEdges shapes rects_all rp incoming es st = .ok (stF, os) →
      ∀ (i : Nat) (e : String × String × String) (o : EdgeOut),
        es[i]? = some e → os[i]? = some o →
        ∀ a, o.arrival = some a →
          ∃ sv, alGet e.2.1 shapes = some sv ∧
            a = ⟨(canonLane sv).2, (canonLane sv).1, true⟩ := by
  intro es
  induction es with
  | nil =>
      intro st stF os hcanon h i e o he ho
      exact absurd he (by simp)
  | cons e0 rest ih =>
      intro st stF os hcanon h i e o he ho
      rw [processEdges] at h
      split at h
      · exact Except.noConfusion h
      · rename_i st1 o1 hpe
        split at h
        · exact Except.noConfusion h
        · rename_i stR osR hrec
          obtain ⟨hstF, hos⟩ := Prod.mk.injEq _ _ _ _ ▸ Except.ok.inj h
          subst hos
          obtain ⟨hc1, harr⟩ := processEdge_arrival hcanon hpe
          cases i with
          | zero =>
              have he0 : e = e0 := by
                rw [List.getElem?_cons_zero] at he
                exact (Option.some.inj he).symm
              have ho0 : o = o1 := by
                rw [List.getElem?_cons_zero] at ho
                exact (Option.some.inj ho).symm
              subst he0
              subst ho0
              exact harr
          | succ n =>
              rw [List.getElem?_cons_succ] at he ho
              exact ih st1 hc1 hrec n e o he ho

/-- **C7.**  In one render pass, every shared arrival segment drawn for
    an edge is exactly the canonical segment of its destination's placed
    box: from the lane point `0.6"` left of the box to the attach point
    at the middle of the box's left edge, with an arrowhead.  The first
    edge to target a destination from the left caches this lane for the
    key `(destination, "left")` and every later edge to that destination
    reuses it, so any two edges with the same destination that approach
    through the shared lane register the identical final segment. -/
theorem shared_arrival_lane (fm : FontM) (fuel : Nat) (text : String)
    {shapes : List (String × Rct)} {outs : List EdgeOut} {usedF : Used}
    (h : pipeline fm fuel text = .ok shapes outs usedF) :
    (∀ (i : Nat) (e : String × String × String) (o : EdgeOut),
      ((parse_schema_details_only text).2.1)[i]? = some e → outs[i]? = some o →
      ∀ a, o.arrival = some a →
        ∃ sv, alGet e.2.1 shapes = some sv ∧
          a = ⟨(canonLane sv).2, (canonLane sv).1, true⟩) ∧
    (∀ (i j : Nat) (ei ej : String × String × String) (oi oj : EdgeOut),
      ((parse_schema_details_only text).2.1)[i]? = some ei →
      ((parse_schema_details_only text).2.1)[j]? = some ej →
      outs[i]? = some oi → outs[j]? = some oj →
      ei.2.1 = ej.2.1 →
      ∀ ai aj, oi.arrival = some ai → oj.arrival = some aj → ai = aj) := by
  have hmain : ∀ (i : Nat) (e : String × String × String) (o : EdgeOut),
      ((parse_schema_details_only text).2.1)[i]? = some e → outs[i]? = some o →
      ∀ a, o.arrival = some a →
        ∃ sv, alGet e.2.1 shapes = some sv ∧
          a = ⟨(canonLane sv).2, (canonLane sv).1, true⟩ := by
    simp only [pipeline] at h
    split at h
    · exact PipeResult.noConfusion h
    · exact PipeResult.noConfusion h
    · split at h
      · exact PipeResult.noConfusion h
      · split at h
        · exact PipeResult.noConfusion h
        · split at h
          · exact PipeResult.noConfusion h
          · split at h
            · exact PipeResult.noConfusion h
            · rename_i stF osR hpes
              obtain ⟨hsh, hou, hus⟩ := PipeResult.ok.inj h
              subst hsh
              subst hou
              exact processEdges_arrival _ _
                (fun k val hget => absurd hget (by simp [laneGet])) hpes
  refine ⟨hmain, ?_⟩
  intro i j ei ej oi oj hei hej hoi hoj hde ai aj hai haj
  obtain ⟨sv1, hsv1, ha1⟩ := hmain i ei oi hei hoi ai hai
  obtain ⟨sv2, hsv2, ha2⟩ := hmain j ej oj hej hoj aj haj
  rw [hde] at hsv1
  have hsv : sv1 = sv2 := Option.some.inj (hsv1.symm.trans hsv2)
  rw [ha1, ha2, hsv]

/-- Witness for C7: in the `tC5` render, the two edges targeting `x`
    (edge indices 1 and 2) both carry a shared arrival segment, and the
    two segments are identical. -/
theorem shared_arrival_lane_witness :
    ∃ o1 o2 a,
      (pipeOuts (pipeline fmTest 100 tC5))[1]? = some o1 ∧
      (pipeOuts (pipeline fmTest 100 tC5))[2]? = some o2 ∧
      o1.arrival = some a ∧ o2.arrival = some a := by
  have hp : pipeline fmTest 100 tC5 = .ok (pipeShapes (pipeline fmTest 100 tC5))
      (pipeOuts (pipeline fmTest 100 tC5)) (pipeUsed (pipeline fmTest 100 tC5)) := by
    decide
  have hmain := shared_arrival_lane fmTest 100 tC5 hp
  cases h1 : (pipeOuts (pipeline fmTest 100 tC5))[1]? with
  | none => exact absurd h1 (by decide)
  | some o1 =>
      cases h2 : (pipeOuts (pipeline fmTest 100 tC5))[2]? with
      | none => exact absurd h2 (by decide)
      | some o2 =>
          have hs1 : ((pipeOuts (pipeline fmTest 100 tC5))[1]?.bind
              EdgeOut.arrival).isSome = true := by decide
          have hs2 : ((pipeOuts (pipeline fmTest 100 tC5))[2]?.bind
              EdgeOut.arrival).isSome = true := by decide
          rw [h1] at hs1
          rw [h2] at hs2
          have hs1' : o1.arrival.isSome = true := hs1
          have hs2' : o2.arrival.isSome = true := hs2
          obtain ⟨a1, ha1⟩ := Option.isSome_iff_exists.mp hs1'
          obtain ⟨a2, ha2⟩ := Option.isSome_iff_exists.mp hs2'
          have heq := hmain.2 1 2 ("s", "x", "") ("d", "x", "Yes") o1 o2
            (by decide) (by decide) h1 h2 rfl a1 a2 ha1 ha2
          exact ⟨o1, o2, a1, rfl, rfl, ha1, by rw [heq]; exact ha2⟩

end FlowSmart
